import Mathlib

/-!
Verification development for the `openclaw-plugin-continuity` repository.

Each JavaScript module that the claims touch is shallowly embedded as Lean
definitions over exact arithmetic:
JS numbers used in integer positions become `Nat`, fractional configuration
values and scores become `Rat`, and values produced by the transcendental
`Math.exp` become `Real` (exact real exponential models the float one).
Fallible operations (database statements, embedding generation) are modelled
as `Except String`-valued functions supplied as explicit dependencies, the
way the JS classes receive their collaborators by constructor injection.
-/

set_option maxHeartbeats 1000000

namespace Continuity

/-! ## Common message and content model

`Message.content` in the plugin is either a plain string or an array of
parts carrying `text` / `content` fields; every module extracts text with
the same `_extractText` helper, which concatenates `c.text || c.content || ''`
over the parts with a single-space separator.  An absent (`undefined`) field
and an empty string behave identically under JS `||`, so parts model both
as `""`. -/

structure Part where
  text : String := ""
  content : String := ""
deriving DecidableEq

inductive Content where
  | str (s : String)
  | parts (l : List Part)
deriving DecidableEq

/-- JS `a || b` on strings: the empty string is falsy. -/
def jsOr (a b : String) : String := if a = "" then b else a

/-- One part's contribution: `c.text || c.content || ''`. -/
def Part.extract (p : Part) : String := jsOr p.text p.content

/-- `_extractText(msg)`: a string content is returned as is; array content
maps each part through `Part.extract` and joins with a single space. -/
def extractText : Content → String
  | .str s => s
  | .parts l => String.intercalate " " (l.map Part.extract)

/-- A conversation message as the hook handlers see it.  `hasToolCalls`
and `hasFunctionCall` model the presence of the `tool_calls` /
`function_call` fields that `Compactor._hasTaskContext` tests for. -/
structure Message where
  role : String
  content : Content
  timestamp : Option String := none
  hasToolCalls : Bool := false
  hasFunctionCall : Bool := false
deriving DecidableEq

/-! ## TokenEstimator (`lib/token-estimator.js`)

The default heuristic is `ceil(words * tokensPerWord + specialChars *
specialCharTokenWeight)` with defaults `1.3` and `0.5`; `estimateMessages`
adds a per-message overhead of 4 tokens.  A custom tokenizer, when
installed, replaces the heuristic (its JS exception-fallback path is not
modelled: the Lean tokenizer is a total function). -/

structure TokenEstimator where
  tokensPerWord : ℚ := 13/10
  specialCharTokenWeight : ℚ := 1/2
  maxTokens : ℕ := 8192
  customTokenizer : Option (String → ℕ) := none

/-- Word count: split on whitespace runs, keep nonempty tokens
(`text.split(/\s+/).filter(w => w.length > 0)`). -/
def wordCount (text : String) : ℕ :=
  ((text.split (fun c => c.isWhitespace)).filter (fun w => w.length > 0)).length

/-- Count of characters matching `[^a-zA-Z0-9\s]` (ASCII alphanumerics,
like the JS character class). -/
def specialCharCount (text : String) : ℕ :=
  (text.data.filter (fun c => !(c.isAlphanum || c.isWhitespace))).length

/-- `_heuristicEstimate`: `Math.ceil(words * tokensPerWord + specialChars *
specialCharTokenWeight)`. -/
def heuristicEstimate (est : TokenEstimator) (text : String) : ℕ :=
  (⌈(wordCount text : ℚ) * est.tokensPerWord +
    (specialCharCount text : ℚ) * est.specialCharTokenWeight⌉).toNat

/-- `estimate(text)`: empty (falsy) text estimates to 0; otherwise the
custom tokenizer if installed, else the heuristic. -/
def TokenEstimator.estimate (est : TokenEstimator) (text : String) : ℕ :=
  if text = "" then 0
  else
    match est.customTokenizer with
    | some f => f text
    | none => heuristicEstimate est text

/-- `estimateMessages(messages)`: per-message estimate plus 4 overhead. -/
def TokenEstimator.estimateMessages (est : TokenEstimator) (msgs : List Message) : ℕ :=
  (msgs.map (fun m => est.estimate (extractText m.content) + 4)).sum

/-- `isOverBudget(textOrMessages, ratio)` for a message array: compares the
estimate against `this.maxTokens * ratio` — always the estimator's own
internally configured ceiling. -/
def TokenEstimator.isOverBudget (est : TokenEstimator) (msgs : List Message) (r : ℚ) : Bool :=
  decide ((est.maxTokens : ℚ) * r < (est.estimateMessages msgs : ℚ))

/-! ## Compactor trigger (`lib/compactor.js`) -/

structure CompactionCfg where
  threshold : ℚ := 80/100
  fallbackMessages : ℕ := 20
  taskAwareCompaction : Bool := true

/-- `Compactor.shouldCompact(messages, maxTokens)`: the local `ceiling`
variable (`maxTokens || this.tokenEstimator.getMaxTokens()`) is computed in
the source but never used; the returned value is
`this.tokenEstimator.isOverBudget(messages, this.threshold)`. -/
def shouldCompact (est : TokenEstimator) (cfg : CompactionCfg) (msgs : List Message)
    (maxTokensOverride : Option ℕ) : Bool :=
  let _ceiling := maxTokensOverride.getD est.maxTokens
  est.isOverBudget msgs cfg.threshold

/-! ## ContextBudget (`lib/context-budget.js`)

Priority tiers with pool ratios; message classification is purely
positional.  The token estimator is injected; `optimize` consults it as an
opaque `estimate` function exactly as the JS class calls
`this.tokenEstimator.estimate`. -/

inductive Tier where
  | essential
  | high
  | medium
  | low
  | minimal
deriving DecidableEq

/-- Tier iteration order of `Object.values(TIERS)`: the declaration order
of the `TIERS` object literal. -/
def tierList : List Tier := [.essential, .high, .medium, .low, .minimal]

structure BudgetCfg where
  budgetRat : ℚ := 65/100
  recentTurnsAlwaysFull : ℕ := 5
  recentTurnCharLimit : ℕ := 3000
  midTurnCharLimit : ℕ := 1500
  olderTurnCharLimit : ℕ := 500
  poolRat : Tier → ℚ := fun t =>
    match t with
    | .essential => 30/100
    | .high => 25/100
    | .medium => 25/100
    | .low => 15/100
    | .minimal => 5/100

/-- `_classifyMessage(msg, index, total)`: system messages are essential;
otherwise banded by distance from the end of the list. -/
def classifyMessage (cfg : BudgetCfg) (m : Message) (index total : ℕ) : Tier :=
  if m.role = "system" then .essential
  else
    let distanceFromEnd := total - 1 - index
    if distanceFromEnd < cfg.recentTurnsAlwaysFull * 2 then .essential
    else if distanceFromEnd < cfg.recentTurnsAlwaysFull * 4 then .medium
    else if distanceFromEnd < cfg.recentTurnsAlwaysFull * 8 then .low
    else .minimal

/-- `_charLimitForTier(tier, index, total)` — the index/total parameters
are accepted and ignored, as in the source. -/
def charLimitForTier (cfg : BudgetCfg) (t : Tier) (_index _total : ℕ) : ℕ :=
  match t with
  | .essential => cfg.recentTurnCharLimit
  | .high => cfg.recentTurnCharLimit
  | .medium => cfg.midTurnCharLimit
  | .low => cfg.olderTurnCharLimit
  | .minimal => cfg.olderTurnCharLimit / 2

/-- JS `lastIndexOf` on a character list: index of the last occurrence,
`-1` when absent. -/
def lastIdxOf (c : Char) (l : List Char) : ℤ :=
  match l.reverse.findIdx? (fun x => x = c) with
  | some i => (l.length : ℤ) - 1 - i
  | none => -1

/-- `_truncateToLimit(text, charLimit)`: within-limit text is unchanged;
otherwise cut at the later of the last period / newline when that break
point lies past half of the chunk, and append a truncation marker. -/
def truncateToLimit (text : String) (charLimit : ℕ) : String :=
  if text.length ≤ charLimit then text
  else
    let truncated := text.data.take charLimit
    let lastPeriod := lastIdxOf '.' truncated
    let lastNewline := lastIdxOf '\n' truncated
    let breakPoint := max lastPeriod lastNewline
    if (charLimit : ℚ) / 2 < (breakPoint : ℚ) then
      String.mk (truncated.take (breakPoint.toNat + 1)) ++ " [...]"
    else
      String.mk truncated ++ " [...]"

/-- A classified message: the `{ message, tier, originalIndex }` triple
`optimize` builds before grouping. -/
structure Classified where
  message : Message
  tier : Tier
  originalIndex : ℕ

/-- An admitted output message: the original message with `content`
replaced by its truncated text, plus the `_tier` / `_originalIndex`
bookkeeping fields. -/
structure OptMessage where
  message : Message
  tier : Tier
  originalIndex : ℕ

/-- Pool size: `Math.floor(totalBudget * ratio)`. -/
def poolFor (totalBudget : ℕ) (r : ℚ) : ℕ :=
  (⌊(totalBudget : ℚ) * r⌋).toNat

/-- The per-tier admission loop: walk the group in order, admit a message
when `poolUsed + tokens <= pool`, accumulating used tokens.  `u` is the
running `poolUsed`. -/
def selectFrom (est : String → ℕ) (cfg : BudgetCfg) (total pool : ℕ) :
    ℕ → List Classified → List OptMessage × ℕ
  | u, [] => ([], u)
  | u, item :: rest =>
    let text := extractText item.message.content
    let charLimit := charLimitForTier cfg item.tier item.originalIndex total
    let truncated := truncateToLimit text charLimit
    let tokens := est truncated
    if u + tokens ≤ pool then
      let res := selectFrom est cfg total pool (u + tokens) rest
      (⟨{ item.message with content := .str truncated }, item.tier, item.originalIndex⟩ :: res.1,
        res.2)
    else selectFrom est cfg total pool u rest

/-- The group for one tier: classified messages filtered to that tier, in
original order. -/
def tierGroup (cfg : BudgetCfg) (msgs : List Message) (t : Tier) : List Classified :=
  ((msgs.enum.map (fun p => Classified.mk p.2 (classifyMessage cfg p.2 p.1 msgs.length) p.1)).filter
    (fun c => c.tier = t))

/-- One tier's pass of the selection loop, starting from `poolUsed = 0`. -/
def tierSelect (cfg : BudgetCfg) (est : String → ℕ) (msgs : List Message)
    (totalBudget : ℕ) (t : Tier) : List OptMessage × ℕ :=
  selectFrom est cfg msgs.length (poolFor totalBudget (cfg.poolRat t)) 0 (tierGroup cfg msgs t)

structure PoolUsage where
  allocated : ℕ
  used : ℕ
  messages : ℕ

structure BudgetReport where
  ceiling : ℕ
  totalBudget : ℕ
  totalUsed : ℕ
  remaining : ℤ
  pools : Tier → PoolUsage

structure OptimizeResult where
  optimizedMessages : List OptMessage
  tokenCount : ℕ
  report : BudgetReport

def emptyReport : BudgetReport :=
  ⟨0, 0, 0, 0, fun _ => ⟨0, 0, 0⟩⟩

/-- `maxTokens || this.tokenEstimator.getMaxTokens()`. -/
def ceilingOf (est : TokenEstimator) (mt : Option ℕ) : ℕ := mt.getD est.maxTokens

/-- `totalBudget = Math.floor(ceiling * this.budgetRatio)`. -/
def totalBudgetOf (cfg : BudgetCfg) (est : TokenEstimator) (mt : Option ℕ) : ℕ :=
  (⌊(ceilingOf est mt : ℚ) * cfg.budgetRat⌋).toNat

/-- `ContextBudget.optimize(messages, maxTokens)`: classify, group by tier,
admit per-tier under the pool budgets, then resort the admitted messages to
original order. -/
def optimize (cfg : BudgetCfg) (est : TokenEstimator) (msgs : List Message)
    (mt : Option ℕ) : OptimizeResult :=
  if msgs = [] then ⟨[], 0, emptyReport⟩
  else
    let B := totalBudgetOf cfg est mt
    ⟨List.insertionSort (fun a b => a.originalIndex ≤ b.originalIndex)
        ((tierList.map (fun t => (tierSelect cfg est.estimate msgs B t).1)).flatten),
      (tierList.map (fun t => (tierSelect cfg est.estimate msgs B t).2)).sum,
      ⟨ceilingOf est mt, B,
        (tierList.map (fun t => (tierSelect cfg est.estimate msgs B t).2)).sum,
        (B : ℤ) - ((tierList.map (fun t => (tierSelect cfg est.estimate msgs B t).2)).sum : ℤ),
        fun t =>
          ⟨poolFor B (cfg.poolRat t), (tierSelect cfg est.estimate msgs B t).2,
            (tierSelect cfg est.estimate msgs B t).1.length⟩⟩⟩

/-- The admission loop never exceeds the pool: the running `poolUsed`
stays at most `pool` whenever it starts at most `pool`. -/
theorem selectFrom_used_le (est : String → ℕ) (cfg : BudgetCfg) (total pool : ℕ) :
    ∀ (l : List Classified) (u : ℕ), u ≤ pool → (selectFrom est cfg total pool u l).2 ≤ pool
  | [], _, h => h
  | item :: rest, u, h => by
    simp only [selectFrom]
    split
    · exact selectFrom_used_le est cfg total pool rest _ (by assumption)
    · exact selectFrom_used_le est cfg total pool rest u h

/-- The final `poolUsed` equals the starting value plus the sum of the
estimates of the admitted (truncated) messages. -/
theorem selectFrom_sum (est : String → ℕ) (cfg : BudgetCfg) (total pool : ℕ) :
    ∀ (l : List Classified) (u : ℕ),
      u + ((selectFrom est cfg total pool u l).1.map
        (fun m => est (extractText m.message.content))).sum =
        (selectFrom est cfg total pool u l).2
  | [], u => by simp [selectFrom]
  | item :: rest, u => by
    simp only [selectFrom]
    split
    · have ih := selectFrom_sum est cfg total pool rest
        (u + est (truncateToLimit (extractText item.message.content)
          (charLimitForTier cfg item.tier item.originalIndex total)))
      simp only [List.map_cons, List.sum_cons, extractText] at ih ⊢
      omega
    · exact selectFrom_sum est cfg total pool rest u

theorem tierSelect_used_le (cfg : BudgetCfg) (est : String → ℕ) (msgs : List Message)
    (B : ℕ) (t : Tier) :
    (tierSelect cfg est msgs B t).2 ≤ poolFor B (cfg.poolRat t) :=
  selectFrom_used_le est cfg msgs.length (poolFor B (cfg.poolRat t)) _ 0 (Nat.zero_le _)

theorem tierSelect_sum (cfg : BudgetCfg) (est : String → ℕ) (msgs : List Message)
    (B : ℕ) (t : Tier) :
    ((tierSelect cfg est msgs B t).1.map
      (fun m => est (extractText m.message.content))).sum = (tierSelect cfg est msgs B t).2 := by
  have h := selectFrom_sum est cfg msgs.length (poolFor B (cfg.poolRat t))
    (tierGroup cfg msgs t) 0
  simpa [tierSelect] using h

/-- A pool allocation is at most `totalBudget * ratio` for a nonnegative
ratio. -/
theorem poolFor_le (B : ℕ) (r : ℚ) (hr : 0 ≤ r) : ((poolFor B r : ℕ) : ℚ) ≤ (B : ℚ) * r := by
  have h0 : (0 : ℚ) ≤ (B : ℚ) * r := mul_nonneg (by positivity) hr
  have h1 : ((⌊(B : ℚ) * r⌋.toNat : ℤ)) = ⌊(B : ℚ) * r⌋ :=
    Int.toNat_of_nonneg (Int.floor_nonneg.mpr h0)
  have h2 : ((⌊(B : ℚ) * r⌋.toNat : ℤ) : ℚ) ≤ (B : ℚ) * r := by
    rw [h1]; exact Int.floor_le _
  unfold poolFor
  exact_mod_cast h2

/-- The five tier pools together fit in the total budget whenever the pool
ratios are nonnegative and sum to at most 1. -/
theorem pools_sum_le (cfg : BudgetCfg) (B : ℕ) (hr : ∀ t, 0 ≤ cfg.poolRat t)
    (hsum : cfg.poolRat .essential + cfg.poolRat .high + cfg.poolRat .medium +
      cfg.poolRat .low + cfg.poolRat .minimal ≤ 1) :
    (tierList.map (fun t => poolFor B (cfg.poolRat t))).sum ≤ B := by
  have hq : ((tierList.map (fun t => poolFor B (cfg.poolRat t))).sum : ℚ) ≤ (B : ℚ) := by
    have he := poolFor_le B (cfg.poolRat .essential) (hr .essential)
    have hh := poolFor_le B (cfg.poolRat .high) (hr .high)
    have hm := poolFor_le B (cfg.poolRat .medium) (hr .medium)
    have hl := poolFor_le B (cfg.poolRat .low) (hr .low)
    have hmin := poolFor_le B (cfg.poolRat .minimal) (hr .minimal)
    have hB : (0 : ℚ) ≤ (B : ℚ) := by positivity
    have hmul : (B : ℚ) * (cfg.poolRat .essential + cfg.poolRat .high + cfg.poolRat .medium +
        cfg.poolRat .low + cfg.poolRat .minimal) ≤ (B : ℚ) * 1 :=
      mul_le_mul_of_nonneg_left hsum hB
    simp only [tierList, List.map_cons, List.map_nil, List.sum_cons, List.sum_nil]
    push_cast
    nlinarith [he, hh, hm, hl, hmin, hmul]
  exact_mod_cast hq

/-- Claim C7: after `ContextBudget.optimize` on a non-empty message list,
every tier's used token count is at most its allocated pool
`floor(totalBudget * ratio)`, the sum of the token estimates of the
selected (truncated) messages is at most
`totalBudget = floor(ceiling * budgetRatio)`, given pool ratios that are
nonnegative and sum to at most 1. -/
theorem c7_budget_invariant (cfg : BudgetCfg) (est : TokenEstimator) (msgs : List Message)
    (mt : Option ℕ) (hne : msgs ≠ [])
    (hr : ∀ t, 0 ≤ cfg.poolRat t)
    (hsum : cfg.poolRat .essential + cfg.poolRat .high + cfg.poolRat .medium +
      cfg.poolRat .low + cfg.poolRat .minimal ≤ 1) :
    (∀ t, ((optimize cfg est msgs mt).report.pools t).used ≤
      ((optimize cfg est msgs mt).report.pools t).allocated) ∧
    (((optimize cfg est msgs mt).optimizedMessages.map
      (fun m => est.estimate (extractText m.message.content))).sum ≤
      (optimize cfg est msgs mt).report.totalBudget) ∧
    (optimize cfg est msgs mt).report.totalBudget =
      (⌊((mt.getD est.maxTokens : ℕ) : ℚ) * cfg.budgetRat⌋).toNat := by
  have hopt : optimize cfg est msgs mt =
      ⟨List.insertionSort (fun a b => a.originalIndex ≤ b.originalIndex)
          ((tierList.map (fun t =>
            (tierSelect cfg est.estimate msgs (totalBudgetOf cfg est mt) t).1)).flatten),
        (tierList.map (fun t =>
          (tierSelect cfg est.estimate msgs (totalBudgetOf cfg est mt) t).2)).sum,
        ⟨ceilingOf est mt, totalBudgetOf cfg est mt,
          (tierList.map (fun t =>
            (tierSelect cfg est.estimate msgs (totalBudgetOf cfg est mt) t).2)).sum,
          ((totalBudgetOf cfg est mt : ℤ)) - ((tierList.map (fun t =>
            (tierSelect cfg est.estimate msgs (totalBudgetOf cfg est mt) t).2)).sum : ℤ),
          fun t =>
            ⟨poolFor (totalBudgetOf cfg est mt) (cfg.poolRat t),
              (tierSelect cfg est.estimate msgs (totalBudgetOf cfg est mt) t).2,
              (tierSelect cfg est.estimate msgs (totalBudgetOf cfg est mt) t).1.length⟩⟩⟩ := by
    rw [optimize, if_neg hne]
  rw [hopt]
  refine ⟨fun t => tierSelect_used_le cfg est.estimate msgs (totalBudgetOf cfg est mt) t, ?_, rfl⟩
  -- the sorted output is a permutation of the per-tier concatenation
  have hperm : ((List.insertionSort (fun a b => a.originalIndex ≤ b.originalIndex)
      ((tierList.map (fun t =>
        (tierSelect cfg est.estimate msgs (totalBudgetOf cfg est mt) t).1)).flatten)).map
        (fun m => est.estimate (extractText m.message.content))).sum =
      (((tierList.map (fun t =>
        (tierSelect cfg est.estimate msgs (totalBudgetOf cfg est mt) t).1)).flatten).map
        (fun m => est.estimate (extractText m.message.content))).sum :=
    List.Perm.sum_eq (List.Perm.map _
      (List.perm_insertionSort (fun (a b : OptMessage) => a.originalIndex ≤ b.originalIndex) _))
  rw [hperm]
  -- sum over the concatenation = sum of per-tier used counts
  have hsum2 : (((tierList.map (fun t =>
      (tierSelect cfg est.estimate msgs (totalBudgetOf cfg est mt) t).1)).flatten).map
      (fun m => est.estimate (extractText m.message.content))).sum =
      (tierList.map (fun t =>
        (tierSelect cfg est.estimate msgs (totalBudgetOf cfg est mt) t).2)).sum := by
    rw [List.map_flatten, List.map_map]
    rw [List.sum_flatten, List.map_map]
    refine congrArg List.sum (List.map_congr_left ?_)
    intro t _
    exact tierSelect_sum cfg est.estimate msgs (totalBudgetOf cfg est mt) t
  rw [hsum2]
  calc (tierList.map (fun t =>
      (tierSelect cfg est.estimate msgs (totalBudgetOf cfg est mt) t).2)).sum ≤
      (tierList.map (fun t => poolFor (totalBudgetOf cfg est mt) (cfg.poolRat t))).sum :=
        List.sum_le_sum (fun t _ =>
          tierSelect_used_le cfg est.estimate msgs (totalBudgetOf cfg est mt) t)
    _ ≤ totalBudgetOf cfg est mt := pools_sum_le cfg (totalBudgetOf cfg est mt) hr hsum

def cfgB0 : BudgetCfg := {}

def estDefault : TokenEstimator := {}

def msgsW7 : List Message := [⟨"user", .str "hi", none, false, false⟩]

/-- Witness for C7: the budget invariant instantiated at a one-message
list with default configuration. -/
theorem c7_budget_invariant_witness :
    msgsW7 ≠ [] ∧ (∀ t, 0 ≤ cfgB0.poolRat t) ∧
    (cfgB0.poolRat .essential + cfgB0.poolRat .high + cfgB0.poolRat .medium +
      cfgB0.poolRat .low + cfgB0.poolRat .minimal ≤ 1) ∧
    (optimize cfgB0 estDefault msgsW7 none).report.totalBudget =
      (⌊(((none : Option ℕ).getD estDefault.maxTokens : ℕ) : ℚ) * cfgB0.budgetRat⌋).toNat := by
  have h1 : msgsW7 ≠ [] := by decide
  have h2 : ∀ t, 0 ≤ cfgB0.poolRat t := by
    intro t
    cases t <;> norm_num [cfgB0]
  have h3 : cfgB0.poolRat .essential + cfgB0.poolRat .high + cfgB0.poolRat .medium +
      cfgB0.poolRat .low + cfgB0.poolRat .minimal ≤ 1 := by norm_num [cfgB0]
  exact ⟨h1, h2, h3, (c7_budget_invariant cfgB0 estDefault msgsW7 none h1 h2 h3).2.2⟩

/-! ## String helpers shared by the anchor detector, the noise filter and
the FTS sanitizer.

JS string case mapping and `String.prototype.includes` are modelled over
the character list of the string. -/

def strLower (s : String) : String := String.mk (s.data.map Char.toLower)

def strUpper (s : String) : String := String.mk (s.data.map Char.toUpper)

/-- Does `l` start with `p`? -/
def startsWithL : List Char → List Char → Bool
  | _, [] => true
  | [], _ :: _ => false
  | a :: as, b :: bs => a = b && startsWithL as bs

/-- Is `p` a contiguous infix of `l`?  Models `String.prototype.includes`. -/
def containsL : List Char → List Char → Bool
  | [], p => startsWithL [] p
  | c :: rest, p => startsWithL (c :: rest) p || containsL rest p

/-- `s.includes(sub)`. -/
def strIncludes (s sub : String) : Bool := containsL s.data sub.data

/-! ## ContinuityAnchors (`lib/continuity-anchors.js`)

`detect` scans user messages for keyword matches and is stateful in JS
(`this._anchors`); the embedding passes the prior anchor list explicitly.
`new Date(msg.timestamp).getTime()` is modelled by an injected
`parseTs : String → ℤ` oracle returning the epoch milliseconds that the JS
`Date` parser would produce. -/

structure Anchor where
  type : String
  priority : ℚ
  text : String
  timestamp : ℤ
  messageIndex : ℕ
  keyword : String
deriving DecidableEq

structure AnchorsCfg where
  enabled : Bool := true
  maxAge : ℤ := 7200000
  maxCount : ℕ := 15
  identityKw : List String := ["who am i", "what am i", "my name", "i am", "identity"]
  contradictionKw : List String := ["but", "however", "contradict", "conflict", "tension"]
  tensionKw : List String := ["problem", "issue", "challenge", "struggle", "confused"]

/-- `_priorityForType`. -/
def anchorPriorityForType (t : String) : ℚ :=
  if t = "identity" then 1
  else if t = "contradiction" then 1
  else if t = "tension" then 7/10
  else 1/2

/-- The plain truncation used by the anchors module and the hook
formatters: `text.substring(0, maxLen - 3) + '...'` past the limit. -/
def simpleTruncate (text : String) (maxLen : ℕ) : String :=
  if text.length ≤ maxLen then text
  else String.mk (text.data.take (maxLen - 3)) ++ "..."

/-- Keyword entries of `this.keywords` in object-literal order. -/
def anchorKeywordEntries (cfg : AnchorsCfg) : List (String × List String) :=
  [("identity", cfg.identityKw), ("contradiction", cfg.contradictionKw),
    ("tension", cfg.tensionKw)]

/-- Process one (type, keywords) entry for one user message: the first
matching keyword creates one anchor unless an anchor for the same
`(messageIndex, type)` already exists. -/
def anchorTypeStep (anchors : List Anchor) (i : ℕ) (text lower : String) (ts : ℤ)
    (entry : String × List String) : List Anchor :=
  match entry.2.find? (fun kw => strIncludes lower (strLower kw)) with
  | none => anchors
  | some kw =>
    if anchors.any (fun a => a.messageIndex = i && a.type = entry.1) then anchors
    else anchors ++ [⟨entry.1, anchorPriorityForType entry.1, simpleTruncate text 200, ts, i, kw⟩]

/-- Scan one message (non-user and empty-text messages are skipped). -/
def anchorMsgStep (cfg : AnchorsCfg) (parseTs : String → ℤ) (now : ℤ)
    (anchors : List Anchor) (i : ℕ) (m : Message) : List Anchor :=
  if m.role ≠ "user" then anchors
  else
    let text := extractText m.content
    if text = "" then anchors
    else
      let lower := strLower text
      let ts := match m.timestamp with
        | some s => parseTs s
        | none => now
      (anchorKeywordEntries cfg).foldl (fun acc e => anchorTypeStep acc i text lower ts e) anchors

/-- `prune(anchors, maxAge, maxCount)`: drop expired anchors, sort by
priority (descending) then timestamp (descending), cap at `maxCount`. -/
def anchorsPrune (cfg : AnchorsCfg) (now : ℤ) (anchors : List Anchor) : List Anchor :=
  let cutoff := now - cfg.maxAge
  let kept := anchors.filter (fun a => cutoff ≤ a.timestamp)
  let sorted := List.insertionSort
    (fun (a b : Anchor) =>
      if a.priority = b.priority then b.timestamp ≤ a.timestamp else b.priority < a.priority)
    kept
  sorted.take cfg.maxCount

/-- `ContinuityAnchors.detect(messages)`: disabled or empty input returns
the prior anchors untouched; otherwise scan then prune. -/
def anchorsDetect (cfg : AnchorsCfg) (parseTs : String → ℤ) (now : ℤ)
    (prior : List Anchor) (msgs : List Message) : List Anchor :=
  if !cfg.enabled || msgs = [] then prior
  else
    anchorsPrune cfg now
      (msgs.enum.foldl (fun acc p => anchorMsgStep cfg parseTs now acc p.1 p.2) prior)

/-- `Math.round` (half away from zero is JS half-up toward positive
infinity). -/
def jsRound (q : ℚ) : ℤ := ⌊q + 1/2⌋

/-- `_formatAge(timestamp)`. -/
def anchorFormatAge (now : ℤ) (ts : ℤ) : String :=
  let minutes := jsRound (((now - ts : ℤ) : ℚ) / 60000)
  if minutes < 1 then "just now"
  else if minutes < 60 then toString minutes ++ "min ago"
  else toString (jsRound ((minutes : ℚ) / 60)) ++ "h ago"

/-- `ContinuityAnchors.format(anchors)`. -/
def anchorsFormat (now : ℤ) (anchors : List Anchor) : String :=
  if anchors = [] then ""
  else
    String.intercalate "\n"
      ("[CONTINUITY ANCHORS]" ::
        anchors.map (fun a =>
          strUpper a.type ++ ": \"" ++ a.text ++ "\" (" ++ anchorFormatAge now a.timestamp ++ ")"))

/-! ## Compactor strategies (`lib/compactor.js`)

`Compactor` receives its `ContextBudget`, `ContinuityAnchors` and
`TokenEstimator` collaborators by constructor injection; the embedding
passes the anchors module as `detectFn` / `formatFn` functions.  A JS
reference-equality check (`compacted.includes(msg)`, the index map of the
final resort) is modelled structurally; this can only affect the cosmetic
ordering inside the task-aware result, not which messages are kept. -/

structure CompactResult where
  compactedMessages : List Message
  strategy : String
deriving DecidableEq

/-- `_hasTaskContext`. -/
def hasTaskContext (msgs : List Message) : Bool :=
  msgs.any (fun m =>
    m.role = "tool" || m.role = "function" || m.hasToolCalls || m.hasFunctionCall)

/-- JS `slice(-n)` for positive `n`: the last `n` elements (the whole list
when shorter). -/
def takeLast {α : Type} (n : ℕ) (l : List α) : List α := l.drop (l.length - n)

/-- Last occurrence index of a message, `0` when absent: models the
`new Map(messages.map((m, i) => [m, i]))` position lookup with its
`|| 0` default. -/
def lastIndexOfMsg (msgs : List Message) (m : Message) : ℕ :=
  match (msgs.enum.filter (fun p => p.2 = m)).getLast? with
  | some p => p.1
  | none => 0

/-- One admission pass of the task-aware strategy: walk `candidates`, skip
entries already in `acc` when `dedup` is on, apply `tweak` to the message,
admit while `tokensUsed + tokens < bound`. -/
def taskAdmit (est : TokenEstimator) (bound : ℚ) (dedup : Bool)
    (tweak : Message → Message) :
    List Message × ℕ → List Message → List Message × ℕ
  | acc, [] => acc
  | (kept, used), m :: rest =>
    if dedup && kept.contains m then taskAdmit est bound dedup tweak (kept, used) rest
    else
      let m' := tweak m
      let tokens := est.estimate (extractText m'.content)
      if ((used + tokens : ℕ) : ℚ) < bound then
        taskAdmit est bound dedup tweak (kept ++ [m'], used + tokens) rest
      else taskAdmit est bound dedup tweak (kept, used) rest

/-- Truncation applied to recent assistant messages:
`text.length > 1500 ? text.substring(0, 1500) + ' [...]' : text`. -/
def assistantTweak (m : Message) : Message :=
  let text := extractText m.content
  let truncated := if 1500 < text.length then String.mk (text.data.take 1500) ++ " [...]" else text
  { m with content := .str truncated }

/-- `_taskAwareStrategy(messages, maxTokens)`. -/
def taskAwareStrategy (est : TokenEstimator) (bcfg : BudgetCfg) (msgs : List Message)
    (maxTokens : ℕ) : CompactResult :=
  let budget := (⌊(maxTokens : ℚ) * bcfg.budgetRat⌋).toNat
  let start : List Message × ℕ :=
    match msgs.find? (fun m => m.role = "system") with
    | some sm => ([sm], est.estimate (extractText sm.content))
    | none => ([], 0)
  let start2 : List Message × ℕ :=
    match msgs.find? (fun m => m.role = "user") with
    | some um => (start.1 ++ [um], start.2 + est.estimate (extractText um.content))
    | none => start
  let toolMessages := msgs.filter (fun m =>
    m.role = "tool" || m.role = "function" ||
      (match m.content with
       | .str s => strIncludes s "[tool_result]"
       | .parts _ => false))
  let s3 := taskAdmit est ((budget : ℚ) * (7/10)) false (fun m => m) start2
    (takeLast 15 toolMessages)
  let s4 := taskAdmit est ((budget : ℚ) * (9/10)) true assistantTweak s3
    (takeLast 5 (msgs.filter (fun m => m.role = "assistant")))
  let s5 := taskAdmit est (budget : ℚ) true (fun m => m) s4
    (takeLast 5 (msgs.filter (fun m => m.role = "user")))
  ⟨List.insertionSort
      (fun a b => lastIndexOfMsg msgs a ≤ lastIndexOfMsg msgs b) s5.1,
    "task-aware"⟩

/-- `_conversationalStrategy(messages, maxTokens)`: budget optimization
plus the anchor summary block appended to (or prepended as) a system
message. -/
def conversationalStrategy (est : TokenEstimator) (bcfg : BudgetCfg)
    (detectFn : List Message → List Anchor) (formatFn : List Anchor → String)
    (msgs : List Message) (maxTokens : ℕ) : CompactResult :=
  let opt := optimize bcfg est msgs (some maxTokens)
  let compacted := opt.optimizedMessages.map (fun m => m.message)
  let anchorBlock := formatFn (detectFn msgs)
  if anchorBlock = "" then ⟨compacted, "conversational"⟩
  else
    match compacted.findIdx? (fun m => m.role = "system") with
    | some i =>
      match compacted.get? i with
      | some sm =>
        ⟨compacted.set i
          { sm with content := .str (extractText sm.content ++ "\n\n" ++ anchorBlock) },
          "conversational"⟩
      | none => ⟨compacted, "conversational"⟩
    | none => ⟨⟨"system", .str anchorBlock, none, false, false⟩ :: compacted, "conversational"⟩

/-- `_fallbackStrategy(messages)`: the first system message (when any)
prepended to the last `fallbackMessages` messages — no deduplication. -/
def fallbackStrategy (cfg : CompactionCfg) (msgs : List Message) : CompactResult :=
  let recent := takeLast cfg.fallbackMessages msgs
  match msgs.find? (fun m => m.role = "system") with
  | some sm => ⟨sm :: recent, "fallback"⟩
  | none => ⟨recent, "fallback"⟩

/-- The strategy dispatch inside `compact`. -/
def strategyResult (est : TokenEstimator) (cfg : CompactionCfg) (bcfg : BudgetCfg)
    (detectFn : List Message → List Anchor) (formatFn : List Anchor → String)
    (msgs : List Message) (ceiling : ℕ) : CompactResult :=
  if cfg.taskAwareCompaction && hasTaskContext msgs then
    taskAwareStrategy est bcfg msgs ceiling
  else conversationalStrategy est bcfg detectFn formatFn msgs ceiling

/-- `Compactor.compact(messages, maxTokens)`. -/
def compact (est : TokenEstimator) (cfg : CompactionCfg) (bcfg : BudgetCfg)
    (detectFn : List Message → List Anchor) (formatFn : List Anchor → String)
    (msgs : List Message) (mt : Option ℕ) : CompactResult :=
  if msgs = [] then ⟨[], "none"⟩
  else
    let ceiling := mt.getD est.maxTokens
    let result := strategyResult est cfg bcfg detectFn formatFn msgs ceiling
    if est.isOverBudget result.compactedMessages (95/100) then fallbackStrategy cfg msgs
    else result

/-- Claim C10: when the chosen compaction strategy's result is still over
0.95 of the estimator's token ceiling, `compact` returns the fallback
selection — the first system message (if any) prepended to the last
`fallbackMessages` messages of the original list; if that system message
lies within those last messages it appears twice, since the fallback path
performs no deduplication. -/
theorem c10_compact_fallback (est : TokenEstimator) (cfg : CompactionCfg) (bcfg : BudgetCfg)
    (detectFn : List Message → List Anchor) (formatFn : List Anchor → String)
    (msgs : List Message) (mt : Option ℕ) (hne : msgs ≠ [])
    (hover : est.isOverBudget
      (strategyResult est cfg bcfg detectFn formatFn msgs (mt.getD est.maxTokens)).compactedMessages
      (95/100) = true) :
    compact est cfg bcfg detectFn formatFn msgs mt = fallbackStrategy cfg msgs ∧
    (compact est cfg bcfg detectFn formatFn msgs mt).compactedMessages =
      (match msgs.find? (fun m => m.role = "system") with
       | some sm => sm :: takeLast cfg.fallbackMessages msgs
       | none => takeLast cfg.fallbackMessages msgs) ∧
    (∀ sm, msgs.find? (fun m => m.role = "system") = some sm →
      sm ∈ takeLast cfg.fallbackMessages msgs →
      2 ≤ (compact est cfg bcfg detectFn formatFn msgs mt).compactedMessages.count sm) := by
  have hc : compact est cfg bcfg detectFn formatFn msgs mt = fallbackStrategy cfg msgs := by
    rw [compact, if_neg hne]
    simp only [hover, if_true]
  refine ⟨hc, ?_, ?_⟩
  · rw [hc, fallbackStrategy]
    cases msgs.find? (fun m => m.role = "system") <;> simp
  · intro sm hfind hmem
    rw [hc, fallbackStrategy, hfind]
    simp only [List.count_cons_self]
    have : 0 < (takeLast cfg.fallbackMessages msgs).count sm :=
      List.count_pos_iff.mpr hmem
    omega

def est1 : TokenEstimator := { maxTokens := 1 }

def cfgC0 : CompactionCfg := {}

def acfg0 : AnchorsCfg := {}

def detect0 : List Message → List Anchor := anchorsDetect acfg0 (fun _ => 0) 0 []

def format0 : List Anchor → String := anchorsFormat 0

def msgsW10 : List Message :=
  [⟨"system", .str "", none, false, false⟩, ⟨"user", .str "", none, false, false⟩]

/-- Witness for C10: two empty messages against a ceiling of 1 token leave
even the optimized selection over 0.95 of the ceiling (the 4-token
per-message overhead alone exceeds it), so `compact` falls back, and the
system message — which lies within the last 20 messages — appears twice. -/
theorem c10_compact_fallback_witness :
    msgsW10 ≠ [] ∧
    est1.isOverBudget
      (strategyResult est1 cfgC0 cfgB0 detect0 format0 msgsW10
        ((none : Option ℕ).getD est1.maxTokens)).compactedMessages (95/100) = true ∧
    2 ≤ (compact est1 cfgC0 cfgB0 detect0 format0 msgsW10 none).compactedMessages.count
      ⟨"system", .str "", none, false, false⟩ := by
  have h1 : msgsW10 ≠ [] := by decide
  have hover : est1.isOverBudget
      (strategyResult est1 cfgC0 cfgB0 detect0 format0 msgsW10
        ((none : Option ℕ).getD est1.maxTokens)).compactedMessages (95/100) = true := by
    norm_num +decide [strategyResult, cfgC0, hasTaskContext, msgsW10, conversationalStrategy, optimize,
      totalBudgetOf, ceilingOf, cfgB0, est1, tierSelect, tierGroup, poolFor, selectFrom,
      classifyMessage, truncateToLimit, TokenEstimator.estimate, heuristicEstimate, wordCount,
      specialCharCount, extractText, detect0, anchorsDetect, acfg0, anchorsPrune, anchorMsgStep,
      format0, anchorsFormat, TokenEstimator.isOverBudget, TokenEstimator.estimateMessages,
      tierList, List.insertionSort, List.orderedInsert, List.enum, List.enumFrom, jsOr]
  have h3 := (c10_compact_fallback est1 cfgC0 cfgB0 detect0 format0 msgsW10 none h1 hover).2.2
  refine ⟨h1, hover, ?_⟩
  have hfind : msgsW10.find? (fun m => m.role = "system") =
      some ⟨"system", .str "", none, false, false⟩ := by decide
  have hmem : (⟨"system", .str "", none, false, false⟩ : Message) ∈
      takeLast cfgC0.fallbackMessages msgsW10 := by decide
  exact h3 _ hfind hmem

/-- Claim C9: `Compactor.shouldCompact` ignores its `maxTokens` override
parameter — for every message list and any two override values the result
is identical, because the trigger always compares the estimate of the
messages against `threshold * tokenEstimator.maxTokens`. -/
theorem c9_shouldCompact_ignores_override (est : TokenEstimator) (cfg : CompactionCfg)
    (msgs : List Message) (a b : Option ℕ) :
    shouldCompact est cfg msgs a = shouldCompact est cfg msgs b ∧
    shouldCompact est cfg msgs a = est.isOverBudget msgs cfg.threshold :=
  ⟨rfl, rfl⟩

/-! ## Searcher (`storage/searcher.js`, hybrid variant)

The hybrid searcher runs a semantic query (vector distance ascending) and
a keyword query (BM25 ascending), fuses the two ranked id lists with
Reciprocal Rank Fusion, applies an exponential recency boost, and sorts by
the composite score, higher first.  Database statements and embedding
generation are injected as `Except String`-valued functions — an `error`
value models a thrown JS exception, which the searcher catches. -/

/-- Characters removed by the first sanitizer pass, the regex class of
`*`, double quote, `^`, parentheses, braces, square brackets and colon
(the two braces are written via their code points). -/
def ftsSpecialChars : List Char :=
  ['*', '"', '^', '(', ')', '[', ']', ':', Char.ofNat 123, Char.ofNat 125]

/-- A word character for the `\b` boundary: `[A-Za-z0-9_]`. -/
def isWordChar (c : Char) : Bool := c.isAlphanum || c = '_'

/-- Case-insensitive anchored match of an (uppercase) operator word:
returns the remaining characters on success. -/
def matchWordCI : List Char → List Char → Option (List Char)
  | [], l => some l
  | _ :: _, [] => none
  | w :: ws, c :: cs => if Char.toUpper c = w then matchWordCI ws cs else none

/-- The `\b` boundary after a match: end of input or a non-word char. -/
def boundaryAfter : List Char → Bool
  | [] => true
  | c :: _ => !isWordChar c

def tryOp (w : List Char) (l : List Char) : Option (List Char) :=
  match matchWordCI w l with
  | none => none
  | some rest => if boundaryAfter rest then some rest else none

/-- Try the operator alternatives in the order of the regex alternation. -/
def tryOps (l : List Char) : Option (List Char) :=
  match tryOp "AND".data l with
  | some r => some r
  | none =>
    match tryOp "OR".data l with
    | some r => some r
    | none =>
      match tryOp "NOT".data l with
      | some r => some r
      | none => tryOp "NEAR".data l

/-- One left-to-right pass of `replace(/\b(AND|OR|NOT|NEAR)\b/gi, '')`.
`prevW` tracks whether the previous character of the original string was a
word character (the `\b` boundary before a candidate match).  The fuel is
the remaining length; every step consumes at least one character, so fuel
equal to the list length never runs out. -/
def stripOpsFuel : ℕ → Bool → List Char → List Char
  | 0, _, l => l
  | _ + 1, _, [] => []
  | fuel + 1, prevW, c :: cs =>
    if !prevW && isWordChar c then
      match tryOps (c :: cs) with
      | some rest => stripOpsFuel fuel true rest
      | none => c :: stripOpsFuel fuel (isWordChar c) cs
    else c :: stripOpsFuel fuel (isWordChar c) cs

def stripOps (l : List Char) : List Char := stripOpsFuel l.length false l

/-- Collapse whitespace runs to single spaces (`replace(/\s+/g, ' ')`). -/
def collapseWsAux : List Char → Bool → List Char
  | [], _ => []
  | c :: cs, prevWs =>
    if c.isWhitespace then
      if prevWs then collapseWsAux cs true else ' ' :: collapseWsAux cs true
    else c :: collapseWsAux cs false

def collapseWs (l : List Char) : List Char := collapseWsAux l false

/-- Trim leading and trailing whitespace. -/
def trimL (l : List Char) : List Char :=
  ((l.dropWhile Char.isWhitespace).reverse.dropWhile Char.isWhitespace).reverse

/-- JS `split(sep)` producing (possibly empty) chunks. -/
def splitOnCharAux (sep : Char) : List Char → List Char → List (List Char)
  | [], cur => [cur.reverse]
  | c :: cs, cur =>
    if c = sep then cur.reverse :: splitOnCharAux sep cs []
    else splitOnCharAux sep cs (c :: cur)

def splitOnChar (sep : Char) (l : List Char) : List (List Char) := splitOnCharAux sep l []

/-- The surviving tokens of `_sanitizeFtsQuery`: strip the special
characters, remove operator words, turn `[.,!?;]` into spaces, collapse
and trim whitespace, split on spaces, keep tokens of length at least 2. -/
def ftsWords (query : String) : List (List Char) :=
  let s1 := query.data.filter (fun c => !ftsSpecialChars.contains c)
  let s2 := stripOps s1
  let s3 := s2.map (fun c => if ['.', ',', '!', '?', ';'].contains c then ' ' else c)
  (splitOnChar ' ' (trimL (collapseWs s3))).filter (fun w => 2 ≤ w.length)

/-- `_sanitizeFtsQuery(query)`: empty (falsy) queries and queries with no
surviving tokens sanitize to the empty string; otherwise each token is
double-quoted and the tokens are joined with single spaces. -/
def sanitizeFtsQuery (query : String) : String :=
  if query = "" then ""
  else
    let words := ftsWords query
    if words = [] then ""
    else String.mk (List.intercalate [' '] (words.map (fun w => '"' :: (w ++ ['"']))))

/-- A row of the FTS5 `SELECT` (`_ftsSearch`). -/
structure FtsRow where
  id : String
  combined : String
  user_text : String
  agent_text : String
  date : String
  exchange_index : ℕ
  metadata : String
  created_at : Option String
  bm25_score : ℚ
deriving DecidableEq

/-- A row of the semantic `SELECT` (`_semanticSearch`). -/
structure VecRow where
  id : String
  combined : String
  user_text : String
  agent_text : String
  date : String
  exchange_index : ℕ
  metadata : String
  created_at : Option String
  distance : ℚ
deriving DecidableEq

/-- The camel-cased candidate record both retrievers map their rows into.
The JSON `metadata` column is carried opaquely (its parse is not used by
any claim). -/
structure ExchRec where
  id : String
  date : String
  exchangeIndex : ℕ
  userText : String
  agentText : String
  combined : String
  metadata : String
  createdAt : Option String
  distance : Option ℚ
  bm25Score : Option ℚ
deriving DecidableEq

def FtsRow.toExch (r : FtsRow) : ExchRec :=
  ⟨r.id, r.date, r.exchange_index, r.user_text, r.agent_text, r.combined, r.metadata,
    r.created_at, none, some r.bm25_score⟩

def VecRow.toExch (r : VecRow) : ExchRec :=
  ⟨r.id, r.date, r.exchange_index, r.user_text, r.agent_text, r.combined, r.metadata,
    r.created_at, some r.distance, none⟩

/-- `_ftsSearch(query, limit)`: a query sanitizing to the empty string
returns no results without touching the database; a thrown statement error
is caught and yields no results. -/
def ftsSearch (exec : String → ℕ → Except String (List FtsRow)) (query : String) (lim : ℕ) :
    List ExchRec :=
  let q := sanitizeFtsQuery query
  if q = "" then []
  else
    match exec q lim with
    | .ok rows => rows.map FtsRow.toExch
    | .error _ => []

/-- Counterexample to claim C5: a query whose sanitization leaves exactly
one surviving token (fewer than 2) does not skip the FTS search — the
sanitized query is non-empty and the keyword retriever returns whatever
the database produces. -/
theorem c5_fts_gating_cex :
    (ftsWords "sourdough").length < 2 ∧
    sanitizeFtsQuery "sourdough" = "\"sourdough\"" ∧
    ftsSearch (fun _ _ => .ok [⟨"e1", "c", "u", "a", "2025-06-01", 0, "m", none, 0⟩])
      "sourdough" 5 ≠ [] := by
  refine ⟨by decide, by decide, ?_⟩
  intro h
  simp only [ftsSearch, sanitizeFtsQuery] at h
  revert h
  decide

/-- Claim C5 (amended): a query with no surviving sanitized token skips
the FTS keyword search entirely, so keyword retrieval contributes no
results for it; a single-token query, however, does run FTS. -/
theorem c5_fts_gating (exec : String → ℕ → Except String (List FtsRow)) (query : String)
    (lim : ℕ) (h : ftsWords query = []) : ftsSearch exec query lim = [] := by
  have hs : sanitizeFtsQuery query = "" := by
    rw [sanitizeFtsQuery]
    split
    · rfl
    · simp [h]
  rw [ftsSearch, hs]
  simp

/-- Witness for C5: the query consisting of one single-letter token and
punctuation sanitizes to no tokens, and `_ftsSearch` returns nothing even
over a database that would return a row. -/
theorem c5_fts_gating_witness :
    ftsWords "a !?" = [] ∧
    ftsSearch (fun _ _ => .ok [⟨"e1", "c", "u", "a", "2025-06-01", 0, "m", none, 0⟩])
      "a !?" 5 = [] := by
  have h : ftsWords "a !?" = [] := by decide
  exact ⟨h, c5_fts_gating _ "a !?" 5 h⟩

/-! ### Reciprocal Rank Fusion (`Searcher._reciprocalRankFusion`)

The JS `Map` keyed by document id is modelled as an insertion-ordered
association list: `Map.set` updates an existing key in place and appends a
new key at the end, so iteration order is first-insertion order. -/

/-- JS `Map.prototype.set`. -/
def mapSet : List (String × ℚ) → String → ℚ → List (String × ℚ)
  | [], i, v => [(i, v)]
  | p :: rest, i, v => if p.1 = i then (i, v) :: rest else p :: mapSet rest i v

/-- `scores.get(id) || 0`: the value at the (unique) key, `0` when
absent. -/
def mapScore : List (String × ℚ) → String → ℚ
  | [], _ => 0
  | p :: rest, i => if p.1 = i then p.2 else mapScore rest i

/-- One ranked list's pass of the fusion loop, starting at rank `rank`:
each id at 0-based rank `r` receives `1 / (k + r + 1)` on top of its
accumulated score. -/
def rrfStep (k : ℕ) : List (String × ℚ) → ℕ → List String → List (String × ℚ)
  | m, _, [] => m
  | m, rank, i :: rest =>
    rrfStep k (mapSet m i (mapScore m i + 1 / ((k : ℚ) + (rank : ℚ) + 1))) (rank + 1) rest

/-- `_reciprocalRankFusion(rankedLists, k)` over the id sequences of the
ranked lists (the JS loop reads only `list[rank].id`; its `continue` on an
empty list is a no-op here). -/
def rrfFuse (lists : List (List String)) (k : ℕ) : List (String × ℚ) :=
  lists.foldl (fun m l => rrfStep k m 0 l) []

/-- Specification-side per-list contribution: `1 / (k + r + 1)` summed
over the 0-based ranks `r` (counted from `rank`) at which the id occurs. -/
def contribFrom (k rank : ℕ) (i : String) : List String → ℚ
  | [] => 0
  | x :: rest =>
    (if x = i then (1 : ℚ) / ((k : ℚ) + (rank : ℚ) + 1) else 0) + contribFrom k (rank + 1) i rest

/-- Specification-side fused score of one id: the per-list contributions
summed over all ranked lists. -/
def rrfSpecScore (lists : List (List String)) (k : ℕ) (i : String) : ℚ :=
  (lists.map (fun l => contribFrom k 0 i l)).sum

theorem mapScore_mapSet_self (m : List (String × ℚ)) (i : String) (v : ℚ) :
    mapScore (mapSet m i v) i = v := by
  induction m with
  | nil => simp [mapSet, mapScore]
  | cons p rest ih =>
    by_cases h : p.1 = i
    · simp [mapSet, mapScore, h]
    · simp [mapSet, mapScore, h, ih]

theorem mapScore_mapSet_ne (m : List (String × ℚ)) (i j : String) (v : ℚ) (h : j ≠ i) :
    mapScore (mapSet m i v) j = mapScore m j := by
  induction m with
  | nil => simp [mapSet, mapScore, Ne.symm h]
  | cons p rest ih =>
    by_cases hp : p.1 = i
    · have hpj : p.1 ≠ j := by rw [hp]; exact Ne.symm h
      simp [mapSet, mapScore, hp, hpj, Ne.symm h]
    · by_cases hq : p.1 = j
      · simp [mapSet, mapScore, hp, hq, h]
      · simp [mapSet, mapScore, hp, hq, ih]

theorem rrfStep_score (k : ℕ) :
    ∀ (l : List String) (m : List (String × ℚ)) (rank : ℕ) (i : String),
      mapScore (rrfStep k m rank l) i = mapScore m i + contribFrom k rank i l
  | [], m, rank, i => by simp [rrfStep, contribFrom]
  | x :: rest, m, rank, i => by
    rw [rrfStep, contribFrom, rrfStep_score k rest]
    by_cases h : x = i
    · subst h
      rw [mapScore_mapSet_self]
      simp only [eq_self_iff_true, if_true]
      ring
    · rw [mapScore_mapSet_ne _ _ _ _ (Ne.symm h), if_neg h]
      ring

theorem rrfFuse_score_aux (k : ℕ) :
    ∀ (lists : List (List String)) (m : List (String × ℚ)) (i : String),
      mapScore (lists.foldl (fun acc l => rrfStep k acc 0 l) m) i =
        mapScore m i + (lists.map (fun l => contribFrom k 0 i l)).sum
  | [], m, i => by simp
  | l :: ls, m, i => by
    simp only [List.foldl_cons, List.map_cons, List.sum_cons]
    rw [rrfFuse_score_aux k ls, rrfStep_score]
    ring

/-- The fused score of every id is exactly the sum over the ranked lists
of `1 / (k + r + 1)` over the ranks `r` where the id occurs. -/
theorem rrfFuse_score (lists : List (List String)) (k : ℕ) (i : String) :
    mapScore (rrfFuse lists k) i = rrfSpecScore lists k i := by
  rw [rrfFuse, rrfSpecScore, rrfFuse_score_aux]
  simp [mapScore]

theorem mapScore_nonneg (m : List (String × ℚ)) (i : String) (h : ∀ p ∈ m, 0 < p.2) :
    0 ≤ mapScore m i := by
  induction m with
  | nil => simp [mapScore]
  | cons p rest ih =>
    by_cases hp : p.1 = i
    · simp only [mapScore, hp, if_true]
      exact le_of_lt (h p (List.mem_cons_self p rest))
    · simp only [mapScore, hp, if_false]
      exact ih (fun r hr => h r (List.mem_cons_of_mem p hr))

theorem mapSet_pos (m : List (String × ℚ)) (i : String) (v : ℚ)
    (hm : ∀ p ∈ m, 0 < p.2) (hv : 0 < v) : ∀ p ∈ mapSet m i v, 0 < p.2 := by
  induction m with
  | nil =>
    intro p hp
    simp only [mapSet, List.mem_singleton] at hp
    simpa [hp] using hv
  | cons q rest ih =>
    intro p hp
    by_cases h : q.1 = i
    · simp only [mapSet, h, if_true, List.mem_cons] at hp
      rcases hp with hp | hp
      · simpa [hp] using hv
      · exact hm p (List.mem_cons_of_mem q hp)
    · simp only [mapSet, h, if_false, List.mem_cons] at hp
      rcases hp with hp | hp
      · exact hm p (hp ▸ List.mem_cons_self q rest)
      · exact ih (fun r hr => hm r (List.mem_cons_of_mem q hr)) p hp

theorem rrfStep_pos (k : ℕ) :
    ∀ (l : List String) (m : List (String × ℚ)) (rank : ℕ),
      (∀ p ∈ m, 0 < p.2) → ∀ p ∈ rrfStep k m rank l, 0 < p.2
  | [], _, _, hm => hm
  | x :: rest, m, rank, hm => by
    rw [rrfStep]
    refine rrfStep_pos k rest _ (rank + 1) ?_
    refine mapSet_pos m x _ hm ?_
    have h1 : (0 : ℚ) < 1 / ((k : ℚ) + (rank : ℚ) + 1) := by positivity
    have h2 : (0 : ℚ) ≤ mapScore m x := mapScore_nonneg m x hm
    linarith

/-- Every entry of the fused score map is strictly positive: each id in
the map occurs in some ranked list and received at least one positive
reciprocal-rank contribution. -/
theorem rrfFuse_pos (lists : List (List String)) (k : ℕ) :
    ∀ p ∈ rrfFuse lists k, 0 < p.2 := by
  rw [rrfFuse]
  have aux : ∀ (ls : List (List String)) (m : List (String × ℚ)),
      (∀ p ∈ m, 0 < p.2) → ∀ p ∈ ls.foldl (fun acc l => rrfStep k acc 0 l) m, 0 < p.2 := by
    intro ls
    induction ls with
    | nil => intro m hm; simpa using hm
    | cons l rest ih =>
      intro m hm
      simp only [List.foldl_cons]
      exact ih _ (rrfStep_pos k l m 0 hm)
  exact aux lists [] (by simp)

/-- Claim C3: Reciprocal Rank Fusion adds `1 / (k + r + 1)` to a
document's score for each list containing it at 0-based rank `r`; for
`k = 60` and input lists `[A, B, C]` and `[B, D]` the fused scores are
`A: 1/61`, `B: 1/62 + 1/61`, `C: 1/63`, `D: 1/62`, and the
descending-score order is `B, A, D, C`. -/
theorem c3_rrf_correctness :
    (∀ (lists : List (List String)) (k : ℕ) (i : String),
      mapScore (rrfFuse lists k) i = rrfSpecScore lists k i) ∧
    rrfFuse [["A", "B", "C"], ["B", "D"]] 60 =
      [("A", 1/61), ("B", 1/62 + 1/61), ("C", 1/63), ("D", 1/62)] ∧
    (List.insertionSort (fun p q : String × ℚ => q.2 ≤ p.2)
      (rrfFuse [["A", "B", "C"], ["B", "D"]] 60)).map Prod.fst = ["B", "A", "D", "C"] := by
  refine ⟨rrfFuse_score, ?_, ?_⟩
  · norm_num +decide [rrfFuse, rrfStep, mapSet, mapScore]
  · norm_num +decide [rrfFuse, rrfStep, mapSet, mapScore, List.insertionSort,
      List.orderedInsert]

/-! ### Temporal re-ranking (`Searcher.search`, hybrid variant)

Epoch-millisecond timestamps and the ranking configuration are exact
rationals; the value of `Math.exp` is the exact real exponential. -/

/-- `recencyBoost = Math.exp(-ageDays / halfLife) * weight` with
`ageDays = ageMs / (1000 * 60 * 60 * 24)` and `ageMs = now - ts`. -/
noncomputable def recencyBoostOf (nowMs tsMs halfLife weight : ℚ) : ℝ :=
  Real.exp (-(((nowMs - tsMs) / (1000 * 60 * 60 * 24) : ℚ) : ℝ) / (halfLife : ℝ)) * (weight : ℝ)

/-- Hybrid composite score: `rrfScore * (1 + recencyBoost)` — higher is
better. -/
noncomputable def compositeOf (rrf nowMs tsMs halfLife weight : ℚ) : ℝ :=
  (rrf : ℝ) * (1 + recencyBoostOf nowMs tsMs halfLife weight)

/-- A fused result as built in the hybrid `search` loop. -/
structure FusedRow where
  id : String
  date : String
  exchangeIndex : ℕ
  userText : String
  agentText : String
  combined : String
  metadata : String
  distance : ℚ
  rrfScore : ℚ
  recencyBoost : ℝ
  compositeScore : ℝ

/-- A more recent timestamp gives a strictly larger recency boost
(positive half-life and weight). -/
theorem recencyBoostOf_strict_mono (nowMs ts1 ts2 halfLife weight : ℚ)
    (hts : ts2 < ts1) (hhl : 0 < halfLife) (hw : 0 < weight) :
    recencyBoostOf nowMs ts2 halfLife weight < recencyBoostOf nowMs ts1 halfLife weight := by
  unfold recencyBoostOf
  have hq : ((nowMs - ts1) / (1000 * 60 * 60 * 24) : ℚ) <
      ((nowMs - ts2) / (1000 * 60 * 60 * 24) : ℚ) := by
    apply div_lt_div_of_pos_right ?_ (by norm_num)
    linarith
  have hr : ((((nowMs - ts1) / (1000 * 60 * 60 * 24) : ℚ)) : ℝ) <
      ((((nowMs - ts2) / (1000 * 60 * 60 * 24) : ℚ)) : ℝ) := by exact_mod_cast hq
  have hhl' : (0 : ℝ) < (halfLife : ℝ) := by exact_mod_cast hhl
  have hexp : Real.exp (-(((nowMs - ts2) / (1000 * 60 * 60 * 24) : ℚ) : ℝ) / (halfLife : ℝ)) <
      Real.exp (-(((nowMs - ts1) / (1000 * 60 * 60 * 24) : ℚ) : ℝ) / (halfLife : ℝ)) := by
    apply Real.exp_lt_exp.mpr
    apply div_lt_div_of_pos_right ?_ hhl'
    linarith
  have hw' : (0 : ℝ) < (weight : ℝ) := by exact_mod_cast hw
  exact mul_lt_mul_of_pos_right hexp hw'

/-- Claim C6: fused RRF scores are always strictly positive, and for two
fused results with identical (positive) RRF score, the one with the more
recent timestamp receives a strictly higher composite score and therefore
occupies a strictly earlier position in any list sorted by descending
composite score, given positive recency weight and half-life. -/
theorem c6_temporal_tie_break :
    (∀ (lists : List (List String)) (k : ℕ), ∀ p ∈ rrfFuse lists k, 0 < p.2) ∧
    (∀ (rrf nowMs ts1 ts2 halfLife weight : ℚ),
      0 < rrf → ts2 < ts1 → 0 < halfLife → 0 < weight →
      compositeOf rrf nowMs ts2 halfLife weight < compositeOf rrf nowMs ts1 halfLife weight ∧
      (∀ (l : List FusedRow),
        l.Pairwise (fun a b => b.compositeScore ≤ a.compositeScore) →
        ∀ (i j : Fin l.length),
          (l.get i).compositeScore = compositeOf rrf nowMs ts1 halfLife weight →
          (l.get j).compositeScore = compositeOf rrf nowMs ts2 halfLife weight →
          (i : ℕ) < (j : ℕ))) := by
  refine ⟨rrfFuse_pos, ?_⟩
  intro rrf nowMs ts1 ts2 halfLife weight hρ hts hhl hw
  have hboost := recencyBoostOf_strict_mono nowMs ts1 ts2 halfLife weight hts hhl hw
  have hρ' : (0 : ℝ) < (rrf : ℝ) := by exact_mod_cast hρ
  have hcomp : compositeOf rrf nowMs ts2 halfLife weight <
      compositeOf rrf nowMs ts1 halfLife weight := by
    unfold compositeOf
    apply mul_lt_mul_of_pos_left ?_ hρ'
    linarith
  refine ⟨hcomp, ?_⟩
  intro l hsorted i j hi hj
  by_contra hij
  push_neg at hij
  rcases Nat.lt_or_ge (j : ℕ) (i : ℕ) with hlt | hge
  · have := (List.pairwise_iff_get.mp hsorted) j i (by exact hlt)
    rw [hi, hj] at this
    exact absurd this (not_le.mpr hcomp)
  · have : (i : ℕ) = (j : ℕ) := le_antisymm (le_of_not_lt (by omega)) (by omega)
    have hfe : i = j := Fin.ext this
    rw [hfe, hj] at hi
    exact absurd hi (ne_of_lt hcomp)

/-- Witness for C6: concrete positive RRF score `1/61`, timestamps one
millisecond apart, default half-life 14 and weight 0.15. -/
theorem c6_temporal_tie_break_witness :
    (0 : ℚ) < 1/61 ∧ (0 : ℚ) < 1 ∧ (0 : ℚ) < 14 ∧ (0 : ℚ) < 3/20 ∧
    compositeOf (1/61) 2 0 14 (3/20) < compositeOf (1/61) 2 1 14 (3/20) :=
  ⟨by norm_num, by norm_num, by norm_num, by norm_num,
    (c6_temporal_tie_break.2 (1/61) 2 1 0 14 (3/20) (by norm_num) (by norm_num)
      (by norm_num) (by norm_num)).1⟩

/-! ### The hybrid `search` entry point

Stateful aspects of the JS class (`this.db`, the lazily initialized
embedding function, the cached FTS5 availability probe) are snapshot in a
dependency record; the two `new Date(...)` parses are oracles returning
the epoch milliseconds the JS parser would produce (`none` models `NaN`).
A JS exception inside a dependency is an `Except.error`, which `search`
catches. -/

/-- `_parseTimestamp(date, exchangeIndex, createdAt)`: `created_at` when
truthy and parseable, else the date at noon UTC plus one minute per
exchange index, else `Date.now()`. -/
def parseTimestampMs (parseMs : String → Option ℚ) (parseDateNoon : String → Option ℚ)
    (nowMs : ℚ) (date : String) (exchangeIndex : ℕ) (createdAt : Option String) : ℚ :=
  let fallback :=
    match parseDateNoon date with
    | some ts => ts + (exchangeIndex : ℚ) * 60000
    | none => nowMs
  match createdAt with
  | some s =>
    if s = "" then fallback
    else
      match parseMs s with
      | some ts => ts
      | none => fallback
  | none => fallback

structure SearchDeps where
  hasDb : Bool
  embedGen : Option (String → Except String (List (List ℚ)))
  vecQuery : List ℚ → ℕ → Except String (List VecRow)
  ftsAvailable : Bool
  ftsExec : String → ℕ → Except String (List FtsRow)
  parseMs : String → Option ℚ
  parseDateNoon : String → Option ℚ
  nowMs : ℚ
  halfLife : ℚ := 14
  weight : ℚ := 3/20
  rrfK : ℕ := 60

/-- `_semanticSearch(query, limit)`: embed the query (a missing embedding
yields no results without error), run the vector query, map the rows. -/
def semanticSearch (deps : SearchDeps) (gen : String → Except String (List (List ℚ)))
    (query : String) (lim : ℕ) : Except String (List ExchRec) := do
  let embeddings ← gen query
  match embeddings.head? with
  | none => pure []
  | some emb => do
    let rows ← deps.vecQuery emb lim
    pure (rows.map VecRow.toExch)

/-- JS `Map.set` for the exchange lookup. -/
def exMapSet : List (String × ExchRec) → String → ExchRec → List (String × ExchRec)
  | [], i, r => [(i, r)]
  | p :: rest, i, r => if p.1 = i then (i, r) :: rest else p :: exMapSet rest i r

/-- JS `Map.get` for the exchange lookup. -/
def exMapGet : List (String × ExchRec) → String → Option ExchRec
  | [], _ => none
  | p :: rest, i => if p.1 = i then some p.2 else exMapGet rest i

/-- Build the candidate lookup: all semantic rows, then keyword rows that
are not already present. -/
def buildExchangeMap (sem kw : List ExchRec) : List (String × ExchRec) :=
  let m := sem.foldl (fun acc r => exMapSet acc r.id r) []
  kw.foldl (fun acc r => if (exMapGet acc r.id).isSome then acc else exMapSet acc r.id r) m

/-- One fused result: RRF score with temporal decay applied
(`distance ?? 1.0` preserved for backward compatibility). -/
noncomputable def mkFused (deps : SearchDeps) (ex : ExchRec) (rrf : ℚ) : FusedRow :=
  let ts := parseTimestampMs deps.parseMs deps.parseDateNoon deps.nowMs ex.date
    ex.exchangeIndex ex.createdAt
  ⟨ex.id, ex.date, ex.exchangeIndex, ex.userText, ex.agentText, ex.combined, ex.metadata,
    ex.distance.getD 1, rrf, recencyBoostOf deps.nowMs ts deps.halfLife deps.weight,
    compositeOf rrf deps.nowMs ts deps.halfLife deps.weight⟩

structure SearchOk where
  exchanges : List FusedRow
  distances : List ℚ

/-- The body of the `try` block of the hybrid `search`. -/
noncomputable def searchBody (deps : SearchDeps)
    (gen : String → Except String (List (List ℚ))) (query : String) (lim : ℕ) :
    Except String SearchOk := do
  let fetchLimit := min (lim * 2) 60
  let sem ← semanticSearch deps gen query fetchLimit
  let kw := if deps.ftsAvailable then ftsSearch deps.ftsExec query fetchLimit else []
  let exchangeMap := buildExchangeMap sem kw
  let scores := rrfFuse [sem.map (fun r => r.id), kw.map (fun r => r.id)] deps.rrfK
  let fused := scores.filterMap
    (fun p => (exMapGet exchangeMap p.1).map (fun ex => mkFused deps ex p.2))
  let sorted := List.insertionSort (fun a b : FusedRow => b.compositeScore ≤ a.compositeScore) fused
  pure ⟨sorted.take lim, (sorted.take lim).map (fun r => r.distance)⟩

structure SearchResult where
  exchanges : List FusedRow
  distances : List ℚ
  error : Option String

/-- `Searcher.search(query, limit)` (hybrid): guard clauses for a missing
database and a missing embedding model, then the `try`/`catch` around the
retrieval pipeline. -/
noncomputable def search (deps : SearchDeps) (query : String) (lim : ℕ) : SearchResult :=
  if deps.hasDb = false then ⟨[], [], some "Database not available"⟩
  else
    match deps.embedGen with
    | none => ⟨[], [], some "Embedding model not available"⟩
    | some gen =>
      match searchBody deps gen query lim with
      | .ok r => ⟨r.exchanges, r.distances, none⟩
      | .error m => ⟨[], [], some m⟩

/-- Claim C8: `search` never throws — it is a total function; when the
database is unavailable, the embedding model is unavailable, or the query
pipeline fails, it returns empty exchange and distance lists together with
a set `error` field; and whenever an error is reported the result lists
are empty. -/
theorem c8_search_error_containment :
    (∀ (deps : SearchDeps) (query : String) (lim : ℕ), deps.hasDb = false →
      search deps query lim = ⟨[], [], some "Database not available"⟩) ∧
    (∀ (deps : SearchDeps) (query : String) (lim : ℕ), deps.embedGen = none →
      deps.hasDb = true →
      search deps query lim = ⟨[], [], some "Embedding model not available"⟩) ∧
    (∀ (deps : SearchDeps) (query : String) (lim : ℕ)
      (gen : String → Except String (List (List ℚ))) (m : String),
      deps.hasDb = true → deps.embedGen = some gen →
      searchBody deps gen query lim = .error m →
      search deps query lim = ⟨[], [], some m⟩) ∧
    (∀ (deps : SearchDeps) (query : String) (lim : ℕ),
      (search deps query lim).error = none ∨
      ((search deps query lim).exchanges = [] ∧ (search deps query lim).distances = [] ∧
        (search deps query lim).error.isSome = true)) := by
  refine ⟨?_, ?_, ?_, ?_⟩
  · intro deps query lim h
    simp [search, h]
  · intro deps query lim hgen h
    simp [search, h, hgen]
  · intro deps query lim gen m h hgen hbody
    simp [search, h, hgen, hbody]
  · intro deps query lim
    rw [search]
    by_cases h : deps.hasDb = false
    · simp [h]
    · simp only [h, if_false]
      cases hgen : deps.embedGen with
      | none => simp
      | some gen =>
        cases hbody : searchBody deps gen query lim with
        | ok r => simp [hbody]
        | error m => simp [hbody]

def depsNoDb : SearchDeps :=
  ⟨false, none, fun _ _ => .ok [], false, fun _ _ => .ok [], fun _ => none, fun _ => none,
    0, 14, 3/20, 60⟩

def depsNoEmbed : SearchDeps :=
  ⟨true, none, fun _ _ => .ok [], false, fun _ _ => .ok [], fun _ => none, fun _ => none,
    0, 14, 3/20, 60⟩

def genBoom : String → Except String (List (List ℚ)) := fun _ => .error "boom"

noncomputable def depsBoom : SearchDeps :=
  ⟨true, some genBoom, fun _ _ => .ok [], false, fun _ _ => .ok [], fun _ => none,
    fun _ => none, 0, 14, 3/20, 60⟩

/-- Witness for C8: the three failure cases at concrete dependencies — a
missing database, a missing embedding model, and an embedding call that
throws. -/
theorem c8_search_error_containment_witness :
    depsNoDb.hasDb = false ∧
    search depsNoDb "q" 5 = ⟨[], [], some "Database not available"⟩ ∧
    depsNoEmbed.embedGen = none ∧
    search depsNoEmbed "q" 5 = ⟨[], [], some "Embedding model not available"⟩ ∧
    searchBody depsBoom genBoom "q" 5 = .error "boom" ∧
    search depsBoom "q" 5 = ⟨[], [], some "boom"⟩ := by
  have hbody : searchBody depsBoom genBoom "q" 5 = .error "boom" := rfl
  refine ⟨rfl, c8_search_error_containment.1 depsNoDb "q" 5 rfl, rfl,
    c8_search_error_containment.2.1 depsNoEmbed "q" 5 rfl rfl, hbody,
    c8_search_error_containment.2.2.1 depsBoom "q" 5 genBoom "boom" rfl rfl hbody⟩

/-! ## Retrieval gating and injection (`index.js`, `before_agent_start`)

The handler computes `topScore = exchanges[0].compositeScore ?? distance`
and decides `shouldInject = hasContinuityIntent || topScore <
RELEVANCE_THRESHOLD` with `RELEVANCE_THRESHOLD = 1.0` — a single
lower-is-better comparison used for both searcher variants. -/

def relevanceThreshold : ℚ := 1

/-- The injection decision the code performs. -/
def ShouldInject (hasContinuityIntent : Bool) (topScore : ℝ) : Prop :=
  hasContinuityIntent = true ∨ topScore < (relevanceThreshold : ℝ)

/-- Modelled from the spec: the injection rule the spec states for the
hybrid (higher-is-better) searcher — inject iff `hasContinuityIntent` OR
the top composite score lies above the relevance threshold. -/
def SpecInjectHybrid (hasContinuityIntent : Bool) (topScore : ℝ) : Prop :=
  hasContinuityIntent = true ∨ (relevanceThreshold : ℝ) < topScore

/-- Counterexample to claim C1: a reachable hybrid top score — one
semantic result at rank 0 (RRF score `1/61`) with age 0 (recency boost
`0.15`) — gives composite `23/1220`, which is below the threshold; with no
continuity intent the code injects while the spec's hybrid rule says not
to, so the claimed if-and-only-if fails. -/
theorem c1_injection_decision_cex :
    compositeOf (1/61) 0 0 14 (3/20) = (23/1220 : ℝ) ∧
    ShouldInject false (compositeOf (1/61) 0 0 14 (3/20)) ∧
    ¬ SpecInjectHybrid false (compositeOf (1/61) 0 0 14 (3/20)) := by
  have hc : compositeOf (1/61) 0 0 14 (3/20) = (23/1220 : ℝ) := by
    unfold compositeOf recencyBoostOf
    norm_num [Real.exp_zero]
  refine ⟨hc, ?_, ?_⟩
  · rw [ShouldInject, hc]
    right
    norm_num [relevanceThreshold]
  · rw [SpecInjectHybrid, hc]
    push_neg
    refine ⟨by simp, ?_⟩
    norm_num [relevanceThreshold]

/-- Claim C1 (amended): the recall block is injected iff
`hasContinuityIntent` OR the top surviving score is strictly below the
relevance threshold `1.0`, in both searcher modes — the hybrid
above-threshold comparison is not implemented.  Moreover, with the hybrid
searcher the comparison is vacuous: the recency boost never exceeds the
weight for non-future timestamps, and any composite score built from an
RRF score of at most `2/61` (two ranked lists) and a boost of at most
`0.15` lies below the threshold, so surviving hybrid results are always
injected. -/
theorem c1_injection_decision_amended :
    (∀ (intent : Bool) (s : ℝ), ShouldInject intent s ↔ (intent = true ∨ s < 1)) ∧
    (∀ (nowMs tsMs halfLife weight : ℚ), tsMs ≤ nowMs → 0 < halfLife → 0 ≤ weight →
      recencyBoostOf nowMs tsMs halfLife weight ≤ (weight : ℝ)) ∧
    (∀ (intent : Bool) (rrf : ℚ) (boost : ℝ), 0 ≤ rrf → rrf ≤ 2/61 → boost ≤ 3/20 →
      ShouldInject intent ((rrf : ℝ) * (1 + boost))) := by
  refine ⟨?_, ?_, ?_⟩
  · intro intent s
    unfold ShouldInject relevanceThreshold
    norm_num
  · intro nowMs tsMs halfLife weight hts hhl hw
    unfold recencyBoostOf
    have hx : (-(((nowMs - tsMs) / (1000 * 60 * 60 * 24) : ℚ) : ℝ) / (halfLife : ℝ)) ≤ 0 := by
      apply div_nonpos_of_nonpos_of_nonneg
      · have : (0 : ℚ) ≤ (nowMs - tsMs) / (1000 * 60 * 60 * 24) := by
          apply div_nonneg (by linarith) (by norm_num)
        have : (0 : ℝ) ≤ (((nowMs - tsMs) / (1000 * 60 * 60 * 24) : ℚ) : ℝ) := by
          exact_mod_cast this
        linarith
      · exact_mod_cast le_of_lt hhl
    have hexp : Real.exp (-(((nowMs - tsMs) / (1000 * 60 * 60 * 24) : ℚ) : ℝ) / (halfLife : ℝ)) ≤ 1 :=
      Real.exp_le_one_iff.mpr hx
    have hw' : (0 : ℝ) ≤ (weight : ℝ) := by exact_mod_cast hw
    calc Real.exp (-(((nowMs - tsMs) / (1000 * 60 * 60 * 24) : ℚ) : ℝ) / (halfLife : ℝ)) *
        (weight : ℝ) ≤ 1 * (weight : ℝ) := mul_le_mul_of_nonneg_right hexp hw'
      _ = (weight : ℝ) := one_mul _
  · intro intent rrf boost hr hr2 hb
    unfold ShouldInject relevanceThreshold
    right
    have hr' : (0 : ℝ) ≤ (rrf : ℝ) := by exact_mod_cast hr
    have hr2' : (rrf : ℝ) ≤ ((2/61 : ℚ) : ℝ) := by exact_mod_cast hr2
    rcases le_or_lt (1 + boost) 0 with hneg | hpos
    · have : (rrf : ℝ) * (1 + boost) ≤ 0 := mul_nonpos_of_nonneg_of_nonpos hr' hneg
      push_cast
      linarith
    · have h1 : (rrf : ℝ) * (1 + boost) ≤ ((2/61 : ℚ) : ℝ) * (1 + boost) :=
        mul_le_mul_of_nonneg_right hr2' (le_of_lt hpos)
      have h2 : ((2/61 : ℚ) : ℝ) * (1 + boost) ≤ ((2/61 : ℚ) : ℝ) * (23/20 : ℝ) := by
        have : (1 + boost : ℝ) ≤ 23/20 := by linarith
        have h61 : (0 : ℝ) ≤ ((2/61 : ℚ) : ℝ) := by norm_num
        exact mul_le_mul_of_nonneg_left this h61
      push_cast at h1 h2 ⊢
      linarith

/-- Witness for C1 (amended): a top-ranked hybrid result with maximal
boost is injected without continuity intent. -/
theorem c1_injection_decision_amended_witness :
    (0 : ℚ) ≤ 1/61 ∧ (1/61 : ℚ) ≤ 2/61 ∧ ((3/20 : ℝ) ≤ 3/20) ∧
    ShouldInject false (((1/61 : ℚ) : ℝ) * (1 + (3/20 : ℝ))) :=
  ⟨by norm_num, by norm_num, le_refl _,
    c1_injection_decision_amended.2.2 false (1/61) (3/20) (by norm_num) (by norm_num)
      (le_refl _)⟩

/-! ## Noise filter and chronological presentation (`index.js`)

`_filterUsefulExchanges`, the chronological sort of the prepend-context
injection, and the recall block of the `tool_result_persist` enrichment
read only the `date`, `exchangeIndex`, `userText` and `agentText` fields
of the retrieved exchanges, captured in `RecallEx`. -/

structure RecallEx where
  date : String
  exchangeIndex : ℕ
  userText : String
  agentText : String
deriving DecidableEq

/-- Interpolate the ASCII apostrophe (written `#` in the source literal)
into a pattern string. -/
def aq (s : String) : String :=
  String.mk (s.data.map (fun c => if c = '#' then Char.ofNat 39 else c))

/-- Agent-side denial and boilerplate patterns. -/
def agentDenials : List String :=
  [aq "i don#t have any", aq "i don#t have details", aq "i don#t have information",
    aq "i don#t seem to have", aq "i don#t have any details", aq "i don#t have any saved",
    "no memory of", "no information about", "no recollection", aq "it looks like i don#t",
    aq "it seems i don#t", "greet the user", "i can help you try to reconstruct",
    "if you could share some details", "if you can share what you remember",
    "could you remind me about it"]

/-- User-side meta-question patterns. -/
def userMetaPatterns : List String :=
  ["do you remember", "do you recall", "do you have any recollection",
    "what do you remember about", "can you tell me anything about the",
    aq "i can#t remember", aq "i can#t recall", "was there anything about",
    "what were all of the details", "can you tell me the details", "tell me the details",
    "what did i tell you about", "did i mention", "did i tell you", "sorry to keep asking",
    "i was wondering if you remember", "hey piper"]

/-- One exchange survives `_filterUsefulExchanges`. -/
def isUsefulExchange (ex : RecallEx) : Bool :=
  let agentLower := strLower ex.agentText
  let userLower := strLower ex.userText
  if agentDenials.any (fun d => strIncludes agentLower d) then false
  else if strIncludes userLower "a new session was started" then false
  else if userMetaPatterns.any (fun p => strIncludes userLower p) then false
  else if userLower.length < 30 && strIncludes agentLower "if you" &&
      strIncludes agentLower "let me know" then false
  else true

def filterUsefulExchanges (l : List RecallEx) : List RecallEx := l.filter isUsefulExchange

/-- Lexicographic strict comparison of character lists — the order
`String.prototype.localeCompare` induces on ASCII `YYYY-MM-DD` dates. -/
def strLt : List Char → List Char → Bool
  | [], [] => false
  | [], _ :: _ => true
  | _ :: _, [] => false
  | a :: as, b :: bs => if a < b then true else if b < a then false else strLt as bs

/-- The chronological comparator of the injection path:
`(a, b) => a.date !== b.date ? a.date.localeCompare(b.date)
: (a.exchangeIndex || 0) - (b.exchangeIndex || 0)`, read as
"`a` sorts no later than `b`". -/
def chronoLeB (a b : RecallEx) : Bool :=
  if a.date = b.date then decide (a.exchangeIndex ≤ b.exchangeIndex)
  else strLt a.date.data b.date.data

def ChronoLe (a b : RecallEx) : Prop := chronoLeB a b = true

instance : DecidableRel ChronoLe := fun _ _ => inferInstanceAs (Decidable (_ = true))

theorem strLt_irrefl : ∀ as : List Char, strLt as as = false
  | [] => rfl
  | a :: as => by simp [strLt, lt_irrefl, strLt_irrefl as]

theorem strLt_total : ∀ as bs : List Char, as = bs ∨ strLt as bs = true ∨ strLt bs as = true
  | [], [] => Or.inl rfl
  | [], _ :: _ => Or.inr (Or.inl rfl)
  | _ :: _, [] => Or.inr (Or.inr rfl)
  | a :: as, b :: bs => by
    rcases lt_trichotomy a b with h | h | h
    · exact Or.inr (Or.inl (by simp [strLt, h]))
    · subst h
      rcases strLt_total as bs with h2 | h2 | h2
      · exact Or.inl (by rw [h2])
      · exact Or.inr (Or.inl (by simp [strLt, lt_irrefl, h2]))
      · exact Or.inr (Or.inr (by simp [strLt, lt_irrefl, h2]))
    · exact Or.inr (Or.inr (by simp [strLt, h]))

theorem strLt_trans : ∀ as bs cs : List Char,
    strLt as bs = true → strLt bs cs = true → strLt as cs = true
  | [], _ :: _, _ :: _, _, _ => rfl
  | [], _ :: _, [], _, h2 => by simp [strLt] at h2
  | [], [], _, h1, _ => by simp [strLt] at h1
  | _ :: _, [], _, h1, _ => by simp [strLt] at h1
  | _ :: _, _ :: _, [], _, h2 => by simp [strLt] at h2
  | a :: as, b :: bs, c :: cs, h1, h2 => by
    simp only [strLt] at h1 h2 ⊢
    by_cases hab : a < b
    · by_cases hbc : b < c
      · simp [lt_trans hab hbc]
      · by_cases hcb : c < b
        · simp [hbc, hcb] at h2
        · have hbc' : b = c := le_antisymm (le_of_not_lt hcb) (le_of_not_lt hbc)
          subst hbc'
          simp [hab]
    · by_cases hba : b < a
      · simp [hab, hba] at h1
      · have hab' : a = b := le_antisymm (le_of_not_lt hba) (le_of_not_lt hab)
        subst hab'
        simp only [lt_irrefl, if_false] at h1
        by_cases hbc : a < c
        · simp [hbc]
        · by_cases hcb : c < a
          · simp [hbc, hcb] at h2
          · have hbc' : a = c := le_antisymm (le_of_not_lt hcb) (le_of_not_lt hbc)
            subst hbc'
            simp only [lt_irrefl, if_false] at h2 ⊢
            exact strLt_trans as bs cs h1 h2

theorem string_ne_data_ne {s t : String} (h : s ≠ t) : s.data ≠ t.data := by
  intro hd
  apply h
  cases s
  cases t
  simp only at hd
  rw [hd]

instance : IsTotal RecallEx ChronoLe := by
  constructor
  intro a b
  unfold ChronoLe chronoLeB
  by_cases h : a.date = b.date
  · simp only [h, if_true, eq_self_iff_true, decide_eq_true_eq]
    omega
  · rcases strLt_total a.date.data b.date.data with he | hl | hl
    · exact absurd (by cases ha : a.date; cases hb : b.date; simp_all) h
    · exact Or.inl (by simp [h, hl])
    · exact Or.inr (by simp [Ne.symm h, hl])

instance : IsTrans RecallEx ChronoLe := by
  constructor
  intro a b c hab hbc
  unfold ChronoLe chronoLeB at hab hbc ⊢
  by_cases h1 : a.date = b.date
  · by_cases h2 : b.date = c.date
    · have h3 : a.date = c.date := h1.trans h2
      simp only [h1, h2, h3, if_true, decide_eq_true_eq] at hab hbc ⊢
      omega
    · have h3 : a.date ≠ c.date := h1 ▸ h2
      simp only [h1, h2, h3, if_true, if_false, decide_eq_true_eq] at hab hbc ⊢
      exact hbc
  · by_cases h2 : b.date = c.date
    · have h3 : a.date ≠ c.date := fun hc => h1 (hc.trans h2.symm)
      simp only [h1, h2, h3, if_false, decide_eq_true_eq] at hab hbc ⊢
      exact hab
    · simp only [h1, h2, if_false] at hab hbc
      have h4 : strLt a.date.data c.date.data = true := strLt_trans _ _ _ hab hbc
      by_cases h3 : a.date = c.date
      · exact absurd h4 (by rw [h3]; simp [strLt_irrefl])
      · simpa [h3] using h4

/-- The recall ordering of the prepend-context injection:
`exchanges.slice(0, 3)` sorted chronologically. -/
def injectionRecallOrder (survivors : List RecallEx) : List RecallEx :=
  List.insertionSort ChronoLe (survivors.take 3)

/-- The recall ordering of the `tool_result_persist` enrichment block:
`usefulExchanges.slice(0, 5)` in cached retrieval order — no sort. -/
def enrichmentRecallOrder (cache : List RecallEx) : List RecallEx :=
  (filterUsefulExchanges cache).take 5

/-- Counterexample to claim C2: two benign exchanges cached in
score order (newer first) both survive the noise filter, and the
enrichment recall block presents them in that order — the first presented
exchange has a strictly later date than the second, violating the claimed
chronological invariant on this path. -/
theorem c2_chronological_presentation_cex :
    enrichmentRecallOrder
      [⟨"2025-06-02", 0, "I baked a fresh sourdough loaf today", "That sounds wonderful and tasty"⟩,
        ⟨"2025-06-01", 0, "My sourdough starter is doing great", "Happy to hear that, keep it up"⟩] =
      [⟨"2025-06-02", 0, "I baked a fresh sourdough loaf today", "That sounds wonderful and tasty"⟩,
        ⟨"2025-06-01", 0, "My sourdough starter is doing great", "Happy to hear that, keep it up"⟩] ∧
    ¬ List.Pairwise ChronoLe
      (enrichmentRecallOrder
        [⟨"2025-06-02", 0, "I baked a fresh sourdough loaf today", "That sounds wonderful and tasty"⟩,
          ⟨"2025-06-01", 0, "My sourdough starter is doing great", "Happy to hear that, keep it up"⟩]) := by
  constructor
  · decide
  · decide

/-- Claim C2 (amended): the recall block of the prepend-context injection
always lists the (up to 3) recalled exchanges sorted chronologically —
for presented positions `i < j`, `(date_i, index_i) ≤ (date_j, index_j)`
under the lexicographic comparator; the `tool_result_persist` enrichment
block, by contrast, presents the cached exchanges unsorted. -/
theorem c2_chronological_presentation (survivors : List RecallEx) :
    List.Pairwise ChronoLe (injectionRecallOrder survivors) :=
  List.sorted_insertionSort ChronoLe (survivors.take 3)

/-! ## Archiver (`storage/archiver.js`)

The archive directory is a pure map from date to day file; `archive`
threads it explicitly and returns the `{ archived, dates }` result.  The
wall clock consulted by `_normalizeTimestamp` for messages without a
timestamp is the `now` parameter (the ISO string
`new Date().toISOString()` would produce).  Numeric and `Date` timestamps
normalize deterministically to the ISO string of their instant and are
represented by that string.  The in-file sort comparator
`new Date(a.timestamp) - new Date(b.timestamp)` is modelled by
lexicographic comparison of the timestamp strings, which agrees with it on
ISO-8601 UTC timestamps. -/

structure NMsg where
  timestamp : String
  sender : String
  text : String
deriving DecidableEq

structure DayFile where
  date : String
  messageCount : ℕ
  messages : List NMsg
deriving DecidableEq

abbrev ArchState := List (String × DayFile)

/-- `_normalizeTimestamp(ts)` for string-or-missing timestamps (the empty
string is falsy in JS and also falls back to the clock). -/
def normalizeTimestamp (now : String) : Option String → String
  | some s => if s = "" then now else s
  | none => now

/-- The dedup key `` `${timestamp}_${sender}` ``. -/
def dedupKey (m : NMsg) : String := m.timestamp ++ "_" ++ m.sender

/-- Filter to user/assistant roles and normalize to archivable format. -/
def normalizeMsgs (now : String) (msgs : List Message) : List NMsg :=
  (msgs.filter (fun m => m.role = "user" || m.role = "assistant")).map
    (fun m => ⟨normalizeTimestamp now m.timestamp,
      if m.role = "user" then "user" else "agent", extractText m.content⟩)

/-- `msg.timestamp.substring(0, 10)`. -/
def dateOf (m : NMsg) : String := String.mk (m.timestamp.data.take 10)

/-- Insertion into the insertion-ordered `byDate` map. -/
def groupInsert (gs : List (String × List NMsg)) (d : String) (m : NMsg) :
    List (String × List NMsg) :=
  match gs with
  | [] => [(d, [m])]
  | (d', ms) :: rest =>
    if d' = d then (d', ms ++ [m]) :: rest else (d', ms) :: groupInsert rest d m

def groupByDate (msgs : List NMsg) : List (String × List NMsg) :=
  msgs.foldl (fun gs m => groupInsert gs (dateOf m) m) []

/-- Read a day file from the archive directory. -/
def stGet : ArchState → String → Option DayFile
  | [], _ => none
  | p :: rest, d => if p.1 = d then some p.2 else stGet rest d

/-- Write (replace or create) a day file. -/
def stSet : ArchState → String → DayFile → ArchState
  | [], d, f => [(d, f)]
  | p :: rest, d, f => if p.1 = d then (d, f) :: rest else p :: stSet rest d f

/-- The timestamp order used to resort a day file. -/
def TsLe (a b : NMsg) : Prop := strLt b.timestamp.data a.timestamp.data = false

instance : DecidableRel TsLe := fun _ _ => inferInstanceAs (Decidable (_ = false))

/-- The dedup loop: append messages whose key is not yet in the key set,
growing the key set as it goes; returns the newly added messages in
order. -/
def dedupAdd (ks : List String) : List NMsg → List NMsg
  | [] => []
  | m :: rest =>
    if dedupKey m ∈ ks then dedupAdd ks rest
    else m :: dedupAdd (dedupKey m :: ks) rest

/-- Archive one date's messages: load the existing file (an absent file is
the empty one), append the unique new entries, and rewrite the file —
sorted by timestamp with an updated count — only when something was
added.  Returns the new state and the `added` count. -/
def archiveDay (st : ArchState) (d : String) (dayMsgs : List NMsg) : ArchState × ℕ :=
  let existing := (stGet st d).getD ⟨d, 0, []⟩
  let ks := existing.messages.map dedupKey
  let newMsgs := dedupAdd ks dayMsgs
  if newMsgs = [] then (st, 0)
  else
    (stSet st d
      ⟨existing.date, (existing.messages ++ newMsgs).length,
        List.insertionSort TsLe (existing.messages ++ newMsgs)⟩,
      newMsgs.length)

/-- One date group's step of the archive loop, accumulating
`totalArchived` and the written `dates`. -/
def archiveStep (acc : ArchState × ℕ × List String) (g : String × List NMsg) :
    ArchState × ℕ × List String :=
  let r := archiveDay acc.1 g.1 g.2
  (r.1, acc.2.1 + r.2, if 0 < r.2 then acc.2.2 ++ [g.1] else acc.2.2)

/-- `Archiver.archive(messages)`: normalize, group by date, archive each
date; returns the new state with `{ archived, dates }`. -/
def archive (st : ArchState) (now : String) (msgs : List Message) :
    ArchState × ℕ × List String :=
  if msgs = [] then (st, 0, [])
  else (groupByDate (normalizeMsgs now msgs)).foldl archiveStep (st, 0, [])

/-- The dedup keys stored in the archive for a date. -/
def fileKeys (st : ArchState) (d : String) : List String :=
  ((stGet st d).getD ⟨d, 0, []⟩).messages.map dedupKey

/-- The state-only view of the archive loop. -/
def sFold (gs : List (String × List NMsg)) (st : ArchState) : ArchState :=
  gs.foldl (fun s g => (archiveDay s g.1 g.2).1) st

theorem archive_foldl_fst :
    ∀ (gs : List (String × List NMsg)) (st : ArchState) (n : ℕ) (ds : List String),
      (gs.foldl archiveStep (st, n, ds)).1 = sFold gs st
  | [], _, _, _ => rfl
  | g :: rest, st, n, ds => by
    simp only [List.foldl_cons, sFold, archiveStep]
    exact archive_foldl_fst rest _ _ _

theorem dedupAdd_nil_of_subset (ks : List String) :
    ∀ dms : List NMsg, (∀ m ∈ dms, dedupKey m ∈ ks) → dedupAdd ks dms = []
  | [], _ => rfl
  | m :: rest, h => by
    simp only [dedupAdd, if_pos (h m (List.mem_cons_self m rest))]
    exact dedupAdd_nil_of_subset ks rest (fun x hx => h x (List.mem_cons_of_mem m hx))

theorem dedupAdd_covers :
    ∀ (dms : List NMsg) (ks : List String) (m : NMsg), m ∈ dms →
      dedupKey m ∈ ks ∨ dedupKey m ∈ (dedupAdd ks dms).map dedupKey
  | [], _, m, h => absurd h (List.not_mem_nil m)
  | x :: rest, ks, m, h => by
    by_cases hx : dedupKey x ∈ ks
    · simp only [dedupAdd, if_pos hx]
      rcases List.mem_cons.mp h with he | hr
      · exact Or.inl (he ▸ hx)
      · exact dedupAdd_covers rest ks m hr
    · simp only [dedupAdd, if_neg hx, List.map_cons]
      rcases List.mem_cons.mp h with he | hr
      · exact Or.inr (by rw [he]; exact List.mem_cons_self _ _)
      · rcases dedupAdd_covers rest (dedupKey x :: ks) m hr with hks | hmem
        · rcases List.mem_cons.mp hks with h1 | h1
          · exact Or.inr (by rw [h1]; exact List.mem_cons_self _ _)
          · exact Or.inl h1
        · exact Or.inr (List.mem_cons_of_mem _ hmem)

theorem stGet_stSet_self (st : ArchState) (d : String) (f : DayFile) :
    stGet (stSet st d f) d = some f := by
  induction st with
  | nil => simp [stGet, stSet]
  | cons p rest ih =>
    by_cases h : p.1 = d
    · simp [stGet, stSet, h]
    · simp [stGet, stSet, h, ih]

theorem stGet_stSet_ne (st : ArchState) (d d' : String) (f : DayFile) (h : d' ≠ d) :
    stGet (stSet st d f) d' = stGet st d' := by
  induction st with
  | nil => simp [stGet, stSet, Ne.symm h]
  | cons p rest ih =>
    by_cases hp : p.1 = d
    · have hp' : p.1 ≠ d' := by rw [hp]; exact Ne.symm h
      simp [stGet, stSet, hp, Ne.symm h, hp']
    · by_cases hq : p.1 = d'
      · simp [stGet, stSet, hp, hq, h]
      · simp [stGet, stSet, hp, hq, ih]

theorem archiveDay_preserves (st : ArchState) (d d' : String) (dms : List NMsg)
    (h : d' ≠ d) : stGet (archiveDay st d dms).1 d' = stGet st d' := by
  rw [archiveDay]
  by_cases hn : dedupAdd (((stGet st d).getD ⟨d, 0, []⟩).messages.map dedupKey) dms = []
  · simp [hn]
  · simp [hn, stGet_stSet_ne st d d' _ h]

theorem fileKeys_stSet (st : ArchState) (d : String) (f : DayFile) :
    fileKeys (stSet st d f) d = f.messages.map dedupKey := by
  rw [fileKeys, stGet_stSet_self]
  rfl

theorem mem_map_insertionSort (l : List NMsg) (k : String) :
    k ∈ (List.insertionSort TsLe l).map dedupKey ↔ k ∈ l.map dedupKey :=
  ((List.perm_insertionSort TsLe l).map dedupKey).mem_iff

theorem archiveDay_keys (st : ArchState) (d : String) (dms : List NMsg) :
    ∀ m ∈ dms, dedupKey m ∈ fileKeys (archiveDay st d dms).1 d := by
  intro m hm
  have hcov := dedupAdd_covers dms (((stGet st d).getD ⟨d, 0, []⟩).messages.map dedupKey) m hm
  by_cases hn : dedupAdd (((stGet st d).getD ⟨d, 0, []⟩).messages.map dedupKey) dms = []
  · have hday : archiveDay st d dms = (st, 0) := by
      simp [archiveDay, hn]
    rw [hday]
    rcases hcov with h | h
    · simpa [fileKeys] using h
    · rw [hn] at h
      simp at h
  · have hday : (archiveDay st d dms).1 = stSet st d
        ⟨((stGet st d).getD ⟨d, 0, []⟩).date,
          (((stGet st d).getD ⟨d, 0, []⟩).messages ++
            dedupAdd (((stGet st d).getD ⟨d, 0, []⟩).messages.map dedupKey) dms).length,
          List.insertionSort TsLe
            (((stGet st d).getD ⟨d, 0, []⟩).messages ++
              dedupAdd (((stGet st d).getD ⟨d, 0, []⟩).messages.map dedupKey) dms)⟩ := by
      simp [archiveDay, hn]
    rw [hday, fileKeys_stSet]
    rw [mem_map_insertionSort, List.map_append, List.mem_append]
    exact hcov

theorem sFold_preserves :
    ∀ (gs : List (String × List NMsg)) (st : ArchState) (d : String),
      (∀ g ∈ gs, g.1 ≠ d) → stGet (sFold gs st) d = stGet st d
  | [], _, _, _ => rfl
  | g :: rest, st, d, h => by
    simp only [sFold, List.foldl_cons]
    have h1 := sFold_preserves rest (archiveDay st g.1 g.2).1 d
      (fun x hx => h x (List.mem_cons_of_mem g hx))
    rw [show rest.foldl (fun s g => (archiveDay s g.1 g.2).1) (archiveDay st g.1 g.2).1 =
      sFold rest (archiveDay st g.1 g.2).1 from rfl, h1]
    exact archiveDay_preserves st g.1 d g.2 (Ne.symm (h g (List.mem_cons_self g rest)))

theorem sFold_keys :
    ∀ (gs : List (String × List NMsg)) (st : ArchState),
      (gs.map Prod.fst).Nodup →
      ∀ g ∈ gs, ∀ m ∈ g.2, dedupKey m ∈ fileKeys (sFold gs st) g.1
  | [], _, _, g, hg => absurd hg (List.not_mem_nil g)
  | g0 :: rest, st, hnd, g, hg => by
    intro m hm
    rw [List.map_cons, List.nodup_cons] at hnd
    simp only [sFold, List.foldl_cons]
    rw [show rest.foldl (fun s g => (archiveDay s g.1 g.2).1) (archiveDay st g0.1 g0.2).1 =
      sFold rest (archiveDay st g0.1 g0.2).1 from rfl]
    rcases List.mem_cons.mp hg with he | hr
    · subst he
      have hne : ∀ g' ∈ rest, g'.1 ≠ g.1 := by
        intro g' hg' hc
        exact hnd.1 (hc ▸ List.mem_map_of_mem Prod.fst hg')
      have hpres := sFold_preserves rest (archiveDay st g.1 g.2).1 g.1 hne
      rw [fileKeys, hpres]
      exact archiveDay_keys st g.1 g.2 m hm
    · exact sFold_keys rest (archiveDay st g0.1 g0.2).1 hnd.2 g hr m hm

theorem archiveDay_noop (st : ArchState) (d : String) (dms : List NMsg)
    (h : ∀ m ∈ dms, dedupKey m ∈ fileKeys st d) : archiveDay st d dms = (st, 0) := by
  have hnil : dedupAdd (((stGet st d).getD ⟨d, 0, []⟩).messages.map dedupKey) dms = [] :=
    dedupAdd_nil_of_subset _ dms h
  simp [archiveDay, hnil]

theorem archiveGroups_noop :
    ∀ (gs : List (String × List NMsg)) (st : ArchState),
      (∀ g ∈ gs, ∀ m ∈ g.2, dedupKey m ∈ fileKeys st g.1) →
      gs.foldl archiveStep (st, 0, []) = (st, 0, [])
  | [], _, _ => rfl
  | g :: rest, st, h => by
    simp only [List.foldl_cons, archiveStep]
    rw [archiveDay_noop st g.1 g.2 (h g (List.mem_cons_self g rest))]
    simp only [Nat.add_zero, lt_irrefl, if_false]
    exact archiveGroups_noop rest st (fun x hx => h x (List.mem_cons_of_mem g hx))

theorem groupInsert_keys (gs : List (String × List NMsg)) (d : String) (m : NMsg) :
    (groupInsert gs d m).map Prod.fst =
      if d ∈ gs.map Prod.fst then gs.map Prod.fst else gs.map Prod.fst ++ [d] := by
  induction gs with
  | nil => simp [groupInsert]
  | cons p rest ih =>
    by_cases h : p.1 = d
    · simp [groupInsert, h]
    · by_cases hd : d ∈ rest.map Prod.fst
      · simp [groupInsert, h, ih, hd, Ne.symm h]
      · simp [groupInsert, h, ih, hd, Ne.symm h]

theorem groupFold_nodup :
    ∀ (msgs : List NMsg) (gs : List (String × List NMsg)),
      (gs.map Prod.fst).Nodup →
      ((msgs.foldl (fun acc m => groupInsert acc (dateOf m) m) gs).map Prod.fst).Nodup
  | [], _, h => h
  | m :: rest, gs, h => by
    simp only [List.foldl_cons]
    apply groupFold_nodup rest
    rw [groupInsert_keys]
    by_cases hd : dateOf m ∈ gs.map Prod.fst
    · simpa [hd] using h
    · simp only [hd, if_false]
      simp [List.nodup_append, h, hd]

theorem groupByDate_nodup (msgs : List NMsg) : ((groupByDate msgs).map Prod.fst).Nodup :=
  groupFold_nodup msgs [] (by simp)

theorem normalizeMsgs_indep (now1 now2 : String) (msgs : List Message)
    (hts : ∀ m ∈ msgs, ∃ s, m.timestamp = some s ∧ s ≠ "") :
    normalizeMsgs now1 msgs = normalizeMsgs now2 msgs := by
  unfold normalizeMsgs
  apply List.map_congr_left
  intro m hm
  obtain ⟨s, hsome, hne⟩ := hts m (List.mem_of_mem_filter hm)
  simp [normalizeTimestamp, hsome, hne]

/-- Claim C4 (amended): for a message stream in which every message
carries a (non-empty string) timestamp, running `archive` a second time
changes nothing: the second call returns `archived = 0` and an empty
`dates` list, and leaves the on-disk state exactly as the first call left
it — no file is rewritten.  For messages without a timestamp the property
holds only when the normalization clock returns the same instant for both
calls. -/
theorem c4_archive_idempotent (st : ArchState) (now1 now2 : String) (msgs : List Message)
    (hts : ∀ m ∈ msgs, ∃ s, m.timestamp = some s ∧ s ≠ "") :
    archive (archive st now1 msgs).1 now2 msgs = ((archive st now1 msgs).1, 0, []) := by
  by_cases hm : msgs = []
  · subst hm
    simp [archive]
  · have hnorm := normalizeMsgs_indep now1 now2 msgs hts
    have hfst : (archive st now1 msgs).1 = sFold (groupByDate (normalizeMsgs now1 msgs)) st := by
      rw [archive, if_neg hm]
      exact archive_foldl_fst _ _ _ _
    rw [archive, if_neg hm, ← hnorm]
    apply archiveGroups_noop
    intro g hg m hmm
    rw [hfst]
    exact sFold_keys _ st (groupByDate_nodup _) g hg m hmm

def msgsTs : List Message :=
  [⟨"user", .str "hello", some "2025-06-01T10:00:00.000Z", false, false⟩]

/-- Witness for C4 (amended): a one-message timestamped stream archived
twice with different clocks — the second call is a no-op. -/
theorem c4_archive_idempotent_witness :
    (∀ m ∈ msgsTs, ∃ s, m.timestamp = some s ∧ s ≠ "") ∧
    archive (archive [] "2025-06-01T10:00:05.000Z" msgsTs).1 "2025-06-02T09:00:00.000Z" msgsTs =
      ((archive [] "2025-06-01T10:00:05.000Z" msgsTs).1, 0, []) := by
  have h : ∀ m ∈ msgsTs, ∃ s, m.timestamp = some s ∧ s ≠ "" := by
    intro m hm
    simp only [msgsTs, List.mem_singleton] at hm
    subst hm
    exact ⟨"2025-06-01T10:00:00.000Z", rfl, by decide⟩
  exact ⟨h, c4_archive_idempotent [] "2025-06-01T10:00:05.000Z" "2025-06-02T09:00:00.000Z" msgsTs h⟩

def msgNoTs : List Message := [⟨"user", .str "hello", none, false, false⟩]

/-- Counterexample to claim C4: a message with no timestamp is normalized
with the wall clock at archive time; when the clock has advanced by the
second call, the dedup key differs, so the second `archive` adds the
message again (`archived = 1`) and rewrites the day file — the on-disk
state differs from the state after a single call. -/
theorem c4_archive_idempotence_cex :
    (archive (archive [] "2025-06-01T10:00:00.000Z" msgNoTs).1 "2025-06-01T10:00:01.000Z"
      msgNoTs).2.1 = 1 ∧
    (archive (archive [] "2025-06-01T10:00:00.000Z" msgNoTs).1 "2025-06-01T10:00:01.000Z"
      msgNoTs).1 ≠ (archive [] "2025-06-01T10:00:00.000Z" msgNoTs).1 := by
  constructor
  · decide
  · decide

end Continuity
